import Mathlib

/-!
Verification of the `liaison` model core against its specification.

The development shallowly embeds the two source files of the repository:

* `src/packages/model/src/field-mask.js` — the `FieldMask` recursive
  selection tree with its merge (`$add`), difference (`$remove`) and
  subset (`$includes`) operations;
* `src/packages/model/src/model.js` — the `Model` engine: construction,
  polymorphic deserialization, serialization, defaults, and the
  commit/rollback change-tracking protocol over a heap of instances.

JavaScript objects are embedded as association lists (preserving the
insertion-order semantics of plain string-keyed objects), thrown errors
as `Except`/`Option` results, and the mutable instance graph as an
explicit heap indexed by addresses.
-/

namespace Liaison

/-! ## FieldMask (field-mask.js)

The backing structure `_fields` of a `FieldMask` maps a field name to
either the literal `true` (a wholly selected leaf) or a nested structure
of the same shape.  We embed that structure as `FieldTree`, and a plain
backing object as an association list `Fields`. -/

inductive FieldTree where
  /-- the literal `true`: the field is wholly selected -/
  | leaf : FieldTree
  /-- a nested plain object describing selection on the field's value -/
  | node : List (String × FieldTree) → FieldTree

abbrev Fields := List (String × FieldTree)

/-- Property lookup `obj[name]` on a plain object: the value at the first
matching key (JavaScript objects have unique keys), `none` when absent. -/
def getKey {β : Type} : List (String × β) → String → Option β
  | [], _ => none
  | (n, v) :: rest, name => if n = name then some v else getKey rest name

/-- Property assignment `obj[name] = v`: an existing key keeps its
position and gets the new value, a new key is appended at the end. -/
def setKey {β : Type} : List (String × β) → String → β → List (String × β)
  | [], name, v => [(name, v)]
  | (n, w) :: rest, name, v =>
    if n = name then (n, v) :: rest else (n, w) :: setKey rest name v

/-- The keys of a plain object. -/
def keysOf {β : Type} (fs : List (String × β)) : List String :=
  fs.map Prod.fst

namespace FieldMask

/-- `Object.entries` applied to a value that is either `true` or a plain
object: `Object.entries(true)` is the empty list. -/
def entriesOf : FieldTree → Fields
  | .leaf => []
  | .node fs => fs

/-- The `_merge` recursion of `FieldMask.$add`.  `orig` is the
`rootFields` parameter (lookups always hit it), `acc` is the
`mergedFields` object being built (it starts as a spread copy of
`rootFields`), and the third argument is the remaining entries of
`rootOtherFields`.  `none` embeds the thrown
"Cannot merge two incompatible fieldMasks" error. -/
def mergeInto (orig : Fields) : Fields → Fields → Option Fields
  | acc, [] => some acc
  | acc, (name, otherT) :: rest =>
    match otherT, getKey orig name with
    | .leaf, some (.node _) => none
    | .leaf, some .leaf => mergeInto orig acc rest
    | .leaf, none => mergeInto orig (setKey acc name .leaf) rest
    | .node _, some .leaf => none
    | .node otherSub, some (.node sub) =>
      match mergeInto sub sub otherSub with
      | none => none
      | some merged => mergeInto orig (setKey acc name (.node merged)) rest
    | .node otherSub, none =>
      match mergeInto ([] : Fields) [] otherSub with
      | none => none
      | some merged => mergeInto orig (setKey acc name (.node merged)) rest
  termination_by acc other => sizeOf other
  decreasing_by all_goals simp_wf <;> omega

/-- `FieldMask.$add(fields, otherFields)`: union with conflict
detection; `none` embeds the `IncompatibleMask` failure. -/
def add (fields otherFields : Fields) : Option Fields :=
  mergeInto fields fields otherFields

/-- What a successful merge stores at one name, as a function of the
two input masks' entries there (`tb`: the second mask's entry, `ta`:
the first mask's entry, `accV`/`rv`: the accumulator's and the result's
entries).  Leaf entries are idempotent, nested entries are merged
recursively, and a leaf/nested clash is impossible on success. -/
def mergeOutcome (tb : FieldTree) (ta accV rv : Option FieldTree) : Prop :=
  match tb, ta with
  | .leaf, none => rv = some .leaf
  | .leaf, some .leaf => rv = accV
  | .leaf, some (.node _) => False
  | .node sb, none =>
    ∃ m, mergeInto ([] : Fields) [] sb = some m ∧ rv = some (.node m)
  | .node _, some .leaf => False
  | .node sb, some (.node sa) =>
    ∃ m, mergeInto sa sa sb = some m ∧ rv = some (.node m)

/-- The `_remove` recursion of `FieldMask.$remove`: iterate the entries
of the first mask, keeping a name unchanged when the second mask has no
entry for it, recursively subtracting (and keeping only a non-empty
remainder) when the second mask's entry is an object, and dropping the
name when the second mask's entry is the leaf `true`. -/
def removeFields : Fields → Fields → Fields
  | [], _ => []
  | (name, t) :: rest, other =>
    match getKey other name with
    | none => (name, t) :: removeFields rest other
    | some (.node otherSub) =>
      let remaining := removeFields (entriesOf t) otherSub
      if remaining.isEmpty then removeFields rest other
      else (name, .node remaining) :: removeFields rest other
    | some .leaf => removeFields rest other
  termination_by fs _ => sizeOf fs
  decreasing_by all_goals simp_wf <;> cases t <;> simp [entriesOf] <;> omega

/-- `FieldMask.$remove(fields, otherFields)`. -/
def remove (fields otherFields : Fields) : Fields :=
  removeFields fields otherFields

/-- The `_includes` recursion of `FieldMask.$includes`: every name of
the second structure must be present in the first; when the first's
entry is an object the recursion descends (a leaf `true` on the first
side satisfies any requirement below it; `Object.entries(true)` being
empty makes the nested check vacuous when the second's entry is a
leaf). -/
def includesFields : Fields → Fields → Bool
  | _, [] => true
  | root, (name, otherT) :: rest =>
    match getKey root name with
    | none => false
    | some .leaf => includesFields root rest
    | some (.node sub) =>
      includesFields sub (entriesOf otherT) && includesFields root rest
  termination_by _ other => sizeOf other
  decreasing_by all_goals simp_wf <;> cases otherT <;> simp [entriesOf] <;> omega

/-- `FieldMask.$includes`, receiver first. -/
def includes (fields otherFields : Fields) : Bool :=
  includesFields fields otherFields

/-- Leaf/nested conflict between two masks, as the spec words it: on
some shared path, one mask's entry is the leaf `true` while the other's
entry is a nested object. -/
def conflict : Fields → Fields → Bool
  | _, [] => false
  | a, (name, t) :: rest =>
    (match getKey a name, t with
     | some .leaf, .node _ => true
     | some (.node _), .leaf => true
     | some (.node sa), .node sb => conflict sa sb
     | _, _ => false) || conflict a rest
  termination_by _ b => sizeOf b
  decreasing_by all_goals simp_wf <;> omega

/-- Well-formedness of a backing structure: keys are unique at every
level (JavaScript objects cannot carry duplicate keys). -/
def wfFields : Fields → Bool
  | [] => true
  | (n, t) :: rest =>
    !(keysOf rest).contains n &&
      (match t with | .leaf => true | .node fs => wfFields fs) &&
      wfFields rest
  termination_by fs => sizeOf fs
  decreasing_by all_goals simp_wf <;> omega

end FieldMask

/-! ## Model (model.js)

The `Model` engine mutates a graph of interlinked instances.  We embed
the mutable instance graph as an explicit heap (a list of instances
indexed by address), JavaScript runtime values as the inductive `Value`
(a reference to an instance is a `ref` into the heap), and each thrown
error as an `Except` result. -/

/-- A JavaScript runtime value as seen by the model engine: `undefined`,
`null`, primitives, plain objects (association lists), arrays, or a
reference to a Model instance living in the heap. -/
inductive Value where
  | undef : Value
  | nullV : Value
  | str : String → Value
  | num : Int → Value
  | boolV : Bool → Value
  | obj : List (String × Value) → Value
  | arr : List Value → Value
  | ref : Nat → Value

abbrev Addr := Nat

/-- A declared field default: `field.default` is a value or a
zero-argument producer, itself possibly producing another producer;
`_applyDefaults` unwraps producers with a `while` loop, which we embed
as a finite chain of thunks. -/
inductive DefaultChain where
  | val : Value → DefaultChain
  | thunk : DefaultChain → DefaultChain

/-- A Field descriptor as the Model engine consumes it: the declared
`name`, the optional `serializedName` (wire name), the optional
`default` declaration, and the `isOwned` flag. -/
structure FieldDef where
  name : String
  serializedName : Option String := none
  default : Option DefaultChain := none
  isOwned : Bool := false

/-- A Model class: `name` (`constructor.getName()`), `chain` — the
constructor-prototype chain of class names that `isOfType` walks,
starting with the class's own name — and `fields`, the `_fields`
registry in declaration order. -/
structure ModelClass where
  name : String
  chain : List String
  fields : List FieldDef

/-- A Model instance: its constructor class (`this.constructor`), the
`_fieldValues` storage, and `_savedFieldValues` (`none` embeds the
JavaScript `undefined` map; an entry of the map may itself hold the
value `undef`). -/
structure Instance where
  cls : ModelClass
  fieldValues : List (String × Value)
  savedFieldValues : Option (List (String × Value))

abbrev Heap := List Instance

/-- The `$registry` installed on a class: `none` when absent. -/
abbrev Registry := Option (List (String × ModelClass))

/-- The error kinds the engine throws. `typeError` is a native
JavaScript `TypeError` (such as reading a property of `null`), distinct
from the explicitly thrown "Type mismatch" error. -/
inductive Err where
  | typeMismatch : Err
  | typeError : Err
  | modelNotFound : Err
  | registryNotFound : Err
deriving DecidableEq

namespace Model

/-- JavaScript truth of "value is `undefined`". -/
def isUndef : Value → Bool
  | .undef => true
  | _ => false

/-- A primitive (non-object, non-instance) value: stored by fields whose
declared type is scalar. -/
def isPrimitive : Value → Bool
  | .obj _ => false
  | .arr _ => false
  | .ref _ => false
  | _ => true

/-- `_getFieldValue(field)`: `this._fieldValues?.[field.name]`, with a
missing map or entry reading as `undefined`. -/
def getFieldValue (i : Instance) (name : String) : Value :=
  (getKey i.fieldValues name).getD Value.undef

/-- `_saveFieldValue(field)`: lazily create `_savedFieldValues` and
store the field's current value under its name — note that an existing
snapshot for the same name is overwritten. -/
def saveFieldValue (i : Instance) (name : String) : Instance :=
  { i with
    savedFieldValues :=
      some (setKey (i.savedFieldValues.getD []) name (getFieldValue i name)) }

/-- Modelled from the spec: `Field.createValue(rawValue, owner,
{isDeserializing})` — the `Field` class is not under `src/`.  Its §1/§6
contract is to coerce a raw value into the field's typed representation;
for the primitive-typed fields this development models, coercion is the
identity. -/
def createValue (_field : FieldDef) (value : Value) (_isDeserializing : Bool) :
    Value :=
  value

/-- `_setFieldValue(field, value, {isDeserializing})`: snapshot the
current value first (unless deserializing), then store the created
value. -/
def setFieldValue (field : FieldDef) (value : Value) (isDeserializing : Bool)
    (i : Instance) : Instance :=
  let i1 := if isDeserializing then i else saveFieldValue i field.name
  { i1 with
    fieldValues :=
      setKey i1.fieldValues field.name (createValue field value isDeserializing) }

/-- Field assignment through the heap (the setter produced by
`defineField` calls `_setFieldValue` on the instance). -/
def setFieldValueH (H : Heap) (a : Addr) (field : FieldDef) (value : Value)
    (isDeserializing : Bool) : Heap :=
  match H[a]? with
  | none => H
  | some i => H.set a (setFieldValue field value isDeserializing i)

/-- The model references contained in a field value, in the order
`findFromOneOrMany` visits them: the value itself when it is an
instance, or the instance elements of an array (one level deep — nested
arrays are not descended into).  The `value?.isOfType &&
value.isOfType('Model')` test holds exactly for instance references. -/
def valueModelRefs : Value → List Addr
  | .ref b => [b]
  | .arr vs =>
    vs.filterMap fun v =>
      match v with
      | .ref b => some b
      | _ => none
  | _ => []

/-- Modelled from the spec: the submodels `forEachSubmodel(func)` visits
through `findFromOneOrMany` (from `@superstore/util`, not under
`src/`).  §1 describes the util as applying a predicate to a single
value or to each element of an array, short-circuiting on the first
defined result, and §4.2 requires `commit`/`rollback` to reach "every
submodel reachable through any field value (scalar or array-valued)"
and `isChanged` to short-circuit on the first changed submodel; so the
scan must continue past predicate results that are defined but `false`,
and the visited submodels are all the models in every field value. -/
def submodelRefs (i : Instance) : List Addr :=
  i.cls.fields.flatMap fun f => valueModelRefs (getFieldValue i f.name)

/-- `_isChanged()`: a pending snapshot map, or some reachable submodel
changed.  The `fuel` bounds the recursion depth through submodels; the
wrappers pass enough fuel for any acyclic instance graph (on a cyclic
graph the JavaScript recursion would not terminate). -/
def isChangedF : Nat → Heap → Addr → Bool
  | 0, _, _ => false
  | fuel + 1, H, a =>
    match H[a]? with
    | none => false
    | some i =>
      i.savedFieldValues.isSome ||
        (submodelRefs i).any fun b => isChangedF fuel H b

/-- `isChanged()`: `this._isChanged() === true`. -/
def isChanged (H : Heap) (a : Addr) : Bool :=
  isChangedF (H.length + 1) H a

/-- `fieldIsChanged(field)`: the field has a recorded snapshot
(`hasOwnProperty` on `_savedFieldValues`), or its value is or contains
a model whose own `isChanged()` is true. -/
def fieldIsChanged (H : Heap) (a : Addr) (field : FieldDef) : Bool :=
  match H[a]? with
  | none => false
  | some i =>
    (match i.savedFieldValues with
     | some saved => (keysOf saved).contains field.name
     | none => false) ||
    (let value := getFieldValue i field.name
     !(isUndef value) && (valueModelRefs value).any fun b => isChanged H b)

/-- `commit()`: discard this instance's snapshots, then recursively
commit every reachable submodel. -/
def commitF : Nat → Heap → Addr → Heap
  | 0, H, _ => H
  | fuel + 1, H, a =>
    match H[a]? with
    | none => H
    | some i =>
      let i1 : Instance := { i with savedFieldValues := none }
      let H1 := H.set a i1
      (submodelRefs i1).foldl (fun h b => commitF fuel h b) H1

def commit (H : Heap) (a : Addr) : Heap :=
  commitF (H.length + 1) H a

/-- The restoring half of `rollback()`: write every snapshot entry back
into `_fieldValues`, then clear `_savedFieldValues`; a no-op when no
snapshot map exists. -/
def restoreSaved (i : Instance) : Instance :=
  match i.savedFieldValues with
  | none => i
  | some saved =>
    { i with
      fieldValues := saved.foldl (fun fv p => setKey fv p.1 p.2) i.fieldValues
      savedFieldValues := none }

/-- `rollback()`: restore this instance's snapshots, then recursively
roll back every reachable submodel. -/
def rollbackF : Nat → Heap → Addr → Heap
  | 0, H, _ => H
  | fuel + 1, H, a =>
    match H[a]? with
    | none => H
    | some i =>
      let i1 := restoreSaved i
      let H1 := H.set a i1
      (submodelRefs i1).foldl (fun h b => rollbackF fuel h b) H1

def rollback (H : Heap) (a : Addr) : Heap :=
  rollbackF (H.length + 1) H a

/-- Heap evolution under `rollback`: every address is either untouched
or has had its snapshots restored (used to localize the effect of the
recursive rollback walk). -/
def heapApprox (H H2 : Heap) : Prop :=
  ∀ c : Addr, H2[c]? = H[c]? ∨ H2[c]? = (H[c]?).map restoreSaved

/-- `isOfType(name)`: the literal name `'Model'` always matches,
otherwise walk the constructor chain. -/
def isOfType (i : Instance) (name : String) : Bool :=
  name = "Model" || i.cls.chain.contains name

/-- `_getModel(name)` through `_getRegistry()`: no installed registry
and unknown tags are distinct fatal errors. -/
def getModel (reg : Registry) (name : String) : Except Err ModelClass :=
  match reg with
  | none => .error .registryNotFound
  | some r =>
    match getKey r name with
    | none => .error .modelNotFound
    | some c => .ok c

/-- `getField(name)`: `this._fields?.[name]`. -/
def getField (C : ModelClass) (name : String) : Option FieldDef :=
  C.fields.find? fun f => f.name == name

/-- `getFieldBySerializedName(name)`: the first field whose
`serializedName` (falling back to its declared name when the wire name
is not set) equals `name`. -/
def getFieldBySerializedName (C : ModelClass) (name : String) :
    Option FieldDef :=
  C.fields.find? fun f =>
    match f.serializedName with
    | some sn => sn == name
    | none => f.name == name

/-- The `while (typeof value === 'function') value = value.call(this)`
loop of `_applyDefaults`. -/
def resolveDefault : DefaultChain → Value
  | .val v => v
  | .thunk d => resolveDefault d

/-- One field's turn in `_applyDefaults()`: skip when the field has no
default declaration or already has a value; otherwise resolve the
default and, when the result is defined, assign it through
`_setFieldValue` (with no `isDeserializing` flag, so the assignment
records a snapshot). -/
def applyDefaultsStep (f : FieldDef) (i : Instance) : Instance :=
  match f.default with
  | none => i
  | some d =>
    if isUndef (getFieldValue i f.name) then
      let v := resolveDefault d
      if isUndef v then i else setFieldValue f v false i
    else i

/-- `_applyDefaults()`: iterate the registry in declaration order. -/
def applyDefaults (C : ModelClass) (i : Instance) : Instance :=
  C.fields.foldl (fun i f => applyDefaultsStep f i) i

/-- The population loop of the constructor: every own entry of the
input is looked up by serialized name (when deserializing) or declared
name; known fields are assigned, unknown keys are silently ignored. -/
def populate (C : ModelClass) (entries : List (String × Value))
    (isDeserializing : Bool) (i : Instance) : Instance :=
  entries.foldl
    (fun i p =>
      match (if isDeserializing then getFieldBySerializedName C p.1
             else getField C p.1) with
      | some f => setFieldValue f p.2 isDeserializing i
      | none => i)
    i

/-- `Object.entries` of an array: index keys in order. -/
def arrayEntries (vs : List Value) : List (String × Value) :=
  vs.enum.map fun p => (toString p.1, p.2)

/-- The constructor body for an input that is not a `_type`-tagged
plain object.  The `_type` branch of the constructor re-enters the
constructor exactly once, on the tag-stripped object, so the re-entrant
call always lands here. -/
def constructPlain (C : ModelClass) (object : Value) (isDeserializing : Bool)
    (H : Heap) : Except Err (Heap × Addr) :=
  match object with
  | .undef =>
    -- `object === undefined`: skip population entirely
    let i0 : Instance := ⟨C, [], none⟩
    let i1 := if isDeserializing then i0 else applyDefaults C i0
    .ok (H ++ [i1], H.length)
  | .str _ => .error .typeMismatch
  | .num _ => .error .typeMismatch
  | .boolV _ => .error .typeMismatch
  | .nullV =>
    -- `typeof null` is `'object'`, so null passes the type check, but
    -- reading `null._type` then throws a native TypeError
    .error .typeError
  | .ref b =>
    -- an already-constructed instance: it satisfies `isOfType('Model')`;
    -- a compatible one is returned as-is, an incompatible one is a
    -- "Type mismatch" (references always resolve in JavaScript, so the
    -- dangling case is unreachable)
    match H[b]? with
    | none => .error .typeError
    | some inst =>
      if isOfType inst C.name then .ok (H, b) else .error .typeMismatch
  | .obj entries =>
    let i0 : Instance := ⟨C, [], none⟩
    let i1 := populate C entries isDeserializing i0
    let i2 := if isDeserializing then i1 else applyDefaults C i1
    .ok (H ++ [i2], H.length)
  | .arr vs =>
    -- an array is `typeof 'object'` with index keys and no `_type`
    let i0 : Instance := ⟨C, [], none⟩
    let i1 := populate C (arrayEntries vs) isDeserializing i0
    let i2 := if isDeserializing then i1 else applyDefaults C i1
    .ok (H ++ [i2], H.length)

/-- The defined `_type` entry of a plain object, if any (`_type !==
undefined`). -/
def tagOf (entries : List (String × Value)) : Option Value :=
  match getKey entries "_type" with
  | some .undef => none
  | some v => some v
  | none => none

/-- The rest-destructuring `const (stripped-tag, ...value) = object`:
every other entry, in order. -/
def stripTag (entries : List (String × Value)) : List (String × Value) :=
  entries.filter fun p => !(p.1 == "_type")

/-- `new Model(object, {isDeserializing})` (model.js lines 7–45).  A
`_type`-tagged plain object resolves its concrete class through the
registry and re-enters the constructor on the tag-stripped payload;
afterwards the outer constructor's `isOfType` check runs against the
produced instance with the outer class's name.  Registry keys are the
class-name strings, so a defined non-string tag enters the branch and
fails the lookup. -/
def construct (reg : Registry) (C : ModelClass) (object : Value)
    (isDeserializing : Bool) (H : Heap) : Except Err (Heap × Addr) :=
  match object with
  | .obj entries =>
    match tagOf entries with
    | none => constructPlain C (.obj entries) isDeserializing H
    | some (.str t) =>
      match getModel reg t with
      | .error e => .error e
      | .ok C2 =>
        match constructPlain C2 (.obj (stripTag entries)) isDeserializing H with
        | .error e => .error e
        | .ok (H2, a2) =>
          match H2[a2]? with
          | none => .error .typeError
          | some inst =>
            if isOfType inst C.name then .ok (H2, a2)
            else .error .typeMismatch
    | some _ =>
      match reg with
      | none => .error .registryNotFound
      | some _ => .error .modelNotFound
  | _ => constructPlain C object isDeserializing H

/-- `static deserialize(object)`: construction with
`isDeserializing: true`. -/
def deserialize (reg : Registry) (C : ModelClass) (object : Value) (H : Heap) :
    Except Err (Heap × Addr) :=
  construct reg C object true H

/-- The options `serialize` recognizes, with their default values
(`includeFields` defaults to `true`; the `Sum` carries either the
boolean form or the array-of-names form). -/
structure SerializeOpts where
  includeFields : Sum Bool (List String) := .inl true
  includeChangedFields : Bool := false
  includeUndefinedFields : Bool := false
  includeOwnedFields : Bool := false

/-- Modelled from the spec: `Field.serializeValue(value, options)` —
the `Field` class is not under `src/`.  For the primitive-typed fields
this development models, serialization is the identity; the options
only influence nested model values, which are outside the modelled
Field fragment. -/
def serializeValue (_field : FieldDef) (value : Value)
    (_opts : SerializeOpts) : Value :=
  value

/-- `field.serializedName || field.name`. -/
def effectiveSerializedName (f : FieldDef) : String :=
  f.serializedName.getD f.name

/-- The inclusion test of `serialize`: selected by `includeFields`, or
individually changed (with `includeChangedFields`), or owned (with
`includeOwnedFields`). -/
def includeField (H : Heap) (a : Addr) (opts : SerializeOpts)
    (f : FieldDef) : Bool :=
  (match opts.includeFields with
   | .inl b => b
   | .inr names => names.contains f.name) ||
  (opts.includeChangedFields && fieldIsChanged H a f) ||
  (opts.includeOwnedFields && f.isOwned)

/-- `serialize(options)`: a plain object tagged with the class name,
with one entry per included field whose serialized value is defined,
keyed by the field's serialized name. -/
def serialize (H : Heap) (a : Addr) (opts : SerializeOpts) : Option Value :=
  match H[a]? with
  | none => none
  | some i =>
    some (.obj (("_type", .str i.cls.name) ::
      i.cls.fields.foldl
        (fun acc f =>
          if includeField H a opts f then
            let v := serializeValue f (getFieldValue i f.name) opts
            if isUndef v then acc else acc ++ [(effectiveSerializedName f, v)]
          else acc)
        []))

end Model

/-! ### Generic association-list lemmas -/

theorem getKey_setKey {β : Type} (fs : List (String × β)) (n : String) (v : β)
    (m : String) :
    getKey (setKey fs n v) m = if n = m then some v else getKey fs m := by
  induction fs with
  | nil => by_cases h : n = m <;> simp [setKey, getKey, h]
  | cons p rest ih =>
    obtain ⟨n', w⟩ := p
    by_cases h1 : n' = n
    · subst h1
      by_cases h2 : n' = m <;> simp [setKey, getKey, h2]
    · by_cases h2 : n' = m
      · subst h2
        have : ¬ n = n' := fun h => h1 h.symm
        simp [setKey, getKey, h1, this]
      · simp [setKey, getKey, h1, h2, ih]

theorem getKey_eq_none {β : Type} (fs : List (String × β)) (name : String) :
    getKey fs name = none ↔ name ∉ keysOf fs := by
  induction fs with
  | nil => simp [getKey, keysOf]
  | cons p rest ih =>
    obtain ⟨n, v⟩ := p
    by_cases h : n = name
    · subst h; simp [getKey, keysOf]
    · have : ¬ name = n := fun hh => h hh.symm
      simp [getKey, keysOf, h, this, ih]

theorem getKey_of_mem {β : Type} {fs : List (String × β)} {name : String} {v : β}
    (hmem : (name, v) ∈ fs) (hnd : (keysOf fs).Nodup) :
    getKey fs name = some v := by
  induction fs with
  | nil => simp at hmem
  | cons p rest ih =>
    obtain ⟨n, w⟩ := p
    simp only [keysOf, List.map_cons, List.nodup_cons] at hnd
    rcases List.mem_cons.mp hmem with heq | htail
    · obtain ⟨h1, h2⟩ := Prod.mk.injEq .. ▸ heq
      simp [getKey, h1.symm, h2]
    · have hne : n ≠ name := by
        intro h
        subst h
        exact hnd.1 (List.mem_map.mpr ⟨(n, v), htail, rfl⟩)
      simpa [getKey, hne] using ih htail hnd.2

theorem getKey_mem {β : Type} {fs : List (String × β)} {name : String} {v : β}
    (h : getKey fs name = some v) : (name, v) ∈ fs := by
  induction fs with
  | nil => simp [getKey] at h
  | cons p rest ih =>
    obtain ⟨n, w⟩ := p
    by_cases hn : n = name
    · subst hn
      simp [getKey] at h
      subst h
      exact List.mem_cons_self _ _
    · rw [getKey, if_neg hn] at h
      exact List.mem_cons_of_mem _ (ih h)

namespace FieldMask

/-! ### Basic lemmas about plain-object access -/

theorem sizeOf_snd_lt_of_mem {p : String × FieldTree} {fs : Fields}
    (h : p ∈ fs) : sizeOf p.2 < sizeOf fs := by
  induction fs with
  | nil => simp at h
  | cons q rest ih =>
    rcases List.mem_cons.mp h with heq | htail
    · subst heq
      obtain ⟨n, t⟩ := p
      simp
      omega
    · have := ih htail
      simp
      omega

/-! ### Well-formedness lemmas -/

theorem wfFields_nil : wfFields [] = true := by
  rw [wfFields]

theorem wfFields_cons (n : String) (t : FieldTree) (rest : Fields) :
    wfFields ((n, t) :: rest) =
      (!(keysOf rest).contains n &&
        (match t with | .leaf => true | .node fs => wfFields fs) &&
        wfFields rest) := by
  rw [wfFields.eq_def]

theorem wfFields_nodup {fs : Fields} (h : wfFields fs = true) :
    (keysOf fs).Nodup := by
  induction fs with
  | nil => simp [keysOf]
  | cons p rest ih =>
    obtain ⟨n, t⟩ := p
    rw [wfFields_cons] at h
    simp only [Bool.and_eq_true, Bool.not_eq_true'] at h
    obtain ⟨⟨h1, _⟩, h3⟩ := h
    refine List.Nodup.cons ?_ (ih h3)
    intro hmem
    have h4 : (keysOf rest).contains n = true := List.elem_eq_true_of_mem hmem
    rw [h4] at h1
    cases h1

theorem wfFields_rest {n : String} {t : FieldTree} {rest : Fields}
    (h : wfFields ((n, t) :: rest) = true) : wfFields rest = true := by
  rw [wfFields_cons] at h
  simp only [Bool.and_eq_true] at h
  exact h.2

theorem wfFields_head_node {n : String} {sub rest : Fields}
    (h : wfFields ((n, .node sub) :: rest) = true) : wfFields sub = true := by
  rw [wfFields_cons] at h
  simp only [Bool.and_eq_true] at h
  exact h.1.2

theorem wfFields_of_mem_node {fs : Fields} {name : String} {sub : Fields}
    (hmem : (name, FieldTree.node sub) ∈ fs) (h : wfFields fs = true) :
    wfFields sub = true := by
  induction fs with
  | nil => simp at hmem
  | cons p rest ih =>
    obtain ⟨n, t⟩ := p
    rcases List.mem_cons.mp hmem with heq | htail
    · obtain ⟨h1, h2⟩ := Prod.mk.injEq .. ▸ heq
      subst h2
      exact wfFields_head_node h
    · exact ih htail (wfFields_rest h)

/-! ### Lookup characterization of `$remove` -/

theorem getKey_removeFields_of_notMem {a : Fields} (b : Fields) {name : String}
    (h : name ∉ keysOf a) : getKey (removeFields a b) name = none := by
  induction a with
  | nil => simp [removeFields, getKey]
  | cons p rest ih =>
    obtain ⟨n, t⟩ := p
    simp only [keysOf, List.map_cons, List.mem_cons] at h
    push_neg at h
    obtain ⟨hne, htail⟩ := h
    have hne' : ¬ n = name := fun hh => hne hh.symm
    rw [removeFields]
    cases hgb : getKey b n with
    | none => simp [getKey, hne', ih htail]
    | some t' =>
      cases t' with
      | leaf => exact ih htail
      | node sub =>
        simp only
        split
        · exact ih htail
        · simp [getKey, hne', ih htail]

/-- Names for which `b` has no entry pass from `a` into `$remove(a, b)`
unchanged (the first occurrence decides the lookup on both sides). -/
theorem getKey_removeFields_none {a b : Fields} {name : String}
    (hb : getKey b name = none) :
    getKey (removeFields a b) name = getKey a name := by
  induction a with
  | nil => simp [removeFields]
  | cons p rest ih =>
    obtain ⟨n, t⟩ := p
    rw [removeFields]
    by_cases hn : n = name
    · subst hn
      rw [hb]
      simp [getKey]
    · cases hgb : getKey b n with
      | none => simp [getKey, hn, ih]
      | some t' =>
        cases t' with
        | leaf => simpa [getKey, hn] using ih
        | node sub =>
          simp only
          split
          · simpa [getKey, hn] using ih
          · simp [getKey, hn, ih]

/-- Names for which `b` has a leaf entry are dropped entirely by
`$remove(a, b)`. -/
theorem getKey_removeFields_leaf {a b : Fields} {name : String}
    (hb : getKey b name = some .leaf) (hnd : (keysOf a).Nodup) :
    getKey (removeFields a b) name = none := by
  induction a with
  | nil => simp [removeFields, getKey]
  | cons p rest ih =>
    obtain ⟨n, t⟩ := p
    simp only [keysOf, List.map_cons, List.nodup_cons] at hnd
    rw [removeFields]
    by_cases hn : n = name
    · subst hn
      rw [hb]
      exact getKey_removeFields_of_notMem b fun hm => hnd.1 hm
    · cases hgb : getKey b n with
      | none => simp [getKey, hn, ih hnd.2]
      | some t' =>
        cases t' with
        | leaf => exact ih hnd.2
        | node sub =>
          simp only
          split
          · exact ih hnd.2
          · simp [getKey, hn, ih hnd.2]

/-- Names for which `b` has a nested entry are recursively subtracted by
`$remove(a, b)` and kept exactly when the remainder is non-empty. -/
theorem getKey_removeFields_node {a b : Fields} {name : String} {sb : Fields}
    {t : FieldTree}
    (hb : getKey b name = some (.node sb)) (ha : getKey a name = some t)
    (hnd : (keysOf a).Nodup) :
    getKey (removeFields a b) name =
      (if (removeFields (entriesOf t) sb).isEmpty then none
       else some (.node (removeFields (entriesOf t) sb))) := by
  induction a with
  | nil => simp [getKey] at ha
  | cons p rest ih =>
    obtain ⟨n, t'⟩ := p
    simp only [keysOf, List.map_cons, List.nodup_cons] at hnd
    rw [removeFields]
    by_cases hn : n = name
    · subst hn
      simp [getKey] at ha
      subst ha
      rw [hb]
      simp only
      split
      · exact getKey_removeFields_of_notMem b fun hm => hnd.1 hm
      · simp [getKey]
    · rw [getKey, if_neg hn] at ha
      cases hgb : getKey b n with
      | none => simp [getKey, hn, ih ha hnd.2]
      | some u =>
        cases u with
        | leaf => exact ih ha hnd.2
        | node sub =>
          simp only
          split
          · exact ih ha hnd.2
          · simp [getKey, hn, ih ha hnd.2]

/-! ### Lookup characterization of `$add` -/

theorem wfFields_getKey_node {fs : Fields} {name : String} {sub : Fields}
    (hwf : wfFields fs = true) (h : getKey fs name = some (.node sub)) :
    wfFields sub = true :=
  wfFields_of_mem_node (getKey_mem h) hwf

theorem mergeInto_nil (orig acc : Fields) : mergeInto orig acc [] = some acc := by
  rw [mergeInto.eq_def]

theorem mergeInto_cons (orig acc : Fields) (name : String) (otherT : FieldTree)
    (rest : Fields) :
    mergeInto orig acc ((name, otherT) :: rest) =
      (match otherT, getKey orig name with
        | .leaf, some (.node _) => none
        | .leaf, some .leaf => mergeInto orig acc rest
        | .leaf, none => mergeInto orig (setKey acc name .leaf) rest
        | .node _, some .leaf => none
        | .node otherSub, some (.node sub) =>
          match mergeInto sub sub otherSub with
          | none => none
          | some merged => mergeInto orig (setKey acc name (.node merged)) rest
        | .node otherSub, none =>
          match mergeInto ([] : Fields) [] otherSub with
          | none => none
          | some merged => mergeInto orig (setKey acc name (.node merged)) rest) := by
  rw [mergeInto.eq_def]

theorem mergeInto_cons_leaf_none {orig : Fields} {name : String}
    (acc rest : Fields) (h : getKey orig name = none) :
    mergeInto orig acc ((name, .leaf) :: rest) =
      mergeInto orig (setKey acc name .leaf) rest := by
  rw [mergeInto_cons, h]

theorem mergeInto_cons_leaf_leaf {orig : Fields} {name : String}
    (acc rest : Fields) (h : getKey orig name = some .leaf) :
    mergeInto orig acc ((name, .leaf) :: rest) = mergeInto orig acc rest := by
  rw [mergeInto_cons, h]

theorem mergeInto_cons_leaf_node {orig : Fields} {name : String} {sub : Fields}
    (acc rest : Fields) (h : getKey orig name = some (.node sub)) :
    mergeInto orig acc ((name, .leaf) :: rest) = none := by
  rw [mergeInto_cons, h]

theorem mergeInto_cons_node_leaf {orig : Fields} {name : String}
    (acc rest otherSub : Fields) (h : getKey orig name = some .leaf) :
    mergeInto orig acc ((name, .node otherSub) :: rest) = none := by
  rw [mergeInto_cons, h]

theorem mergeInto_cons_node_node {orig : Fields} {name : String} {sub : Fields}
    (acc rest otherSub : Fields) (h : getKey orig name = some (.node sub)) :
    mergeInto orig acc ((name, .node otherSub) :: rest) =
      (match mergeInto sub sub otherSub with
        | none => none
        | some merged =>
          mergeInto orig (setKey acc name (.node merged)) rest) := by
  rw [mergeInto_cons, h]

theorem mergeInto_cons_node_none {orig : Fields} {name : String}
    (acc rest otherSub : Fields) (h : getKey orig name = none) :
    mergeInto orig acc ((name, .node otherSub) :: rest) =
      (match mergeInto ([] : Fields) [] otherSub with
        | none => none
        | some merged =>
          mergeInto orig (setKey acc name (.node merged)) rest) := by
  rw [mergeInto_cons, h]

/-- Merging anything into an empty left-hand mask never produces a
conflict. -/
theorem conflict_nil (b : Fields) : conflict [] b = false := by
  induction b with
  | nil => rw [conflict]
  | cons p rest ih =>
    obtain ⟨n, t⟩ := p
    rw [conflict.eq_def]
    simp only [ih, Bool.or_false]
    have h0 : getKey ([] : Fields) n = none := rfl
    rw [h0]

/-- The `_merge` recursion fails exactly when the conflict predicate
holds between the lookup side and the remaining entries: the
accumulator never influences failure. -/
theorem mergeInto_eq_none_iff (orig acc b : Fields) :
    mergeInto orig acc b = none ↔ conflict orig b = true := by
  induction orig, acc, b using mergeInto.induct with
  | case1 orig acc => simp [mergeInto, conflict]
  | case2 orig acc name rest sa hk =>
    simp [mergeInto, conflict, hk]
  | case3 orig acc name rest hk ih =>
    simp [mergeInto, conflict, hk, ih]
  | case4 orig acc name rest hk ih =>
    simp [mergeInto, conflict, hk, ih]
  | case5 orig acc name rest sa hk =>
    simp [mergeInto, conflict, hk]
  | case6 orig acc name rest otherSub sub hk hm ih =>
    simp [mergeInto, conflict, hk, hm, ih.mp hm]
  | case7 orig acc name rest otherSub sub hk merged hm ih1 ih2 =>
    have hc : conflict sub otherSub = false := by
      cases hcc : conflict sub otherSub
      · rfl
      · exact absurd (ih1.mpr hcc) (by simp [hm])
    simp [mergeInto, conflict, hk, hm, hc, ih2]
  | case8 orig acc name rest otherSub hk hm ih =>
    exact absurd (ih.mp hm) (by simp [conflict_nil])
  | case9 orig acc name rest otherSub hk merged hm ih1 ih2 =>
    simp [mergeInto, conflict, hk, hm, ih2]

/-- Names not present in the second mask keep their accumulator value
through the `_merge` recursion. -/
theorem getKey_mergeInto_of_notMem {orig b : Fields} {name : String}
    (h : name ∉ keysOf b) :
    ∀ {acc r : Fields}, mergeInto orig acc b = some r →
      getKey r name = getKey acc name := by
  induction b with
  | nil =>
    intro acc r hm
    rw [mergeInto_nil] at hm
    cases hm
    rfl
  | cons p rest ih =>
    intro acc r hm
    obtain ⟨n, t⟩ := p
    simp only [keysOf, List.map_cons, List.mem_cons] at h
    push_neg at h
    obtain ⟨hne, htail⟩ := h
    have hne' : ¬ n = name := fun hh => hne hh.symm
    cases t with
    | leaf =>
      cases hko : getKey orig n with
      | none =>
        rw [mergeInto_cons_leaf_none acc rest hko] at hm
        rw [ih htail hm, getKey_setKey, if_neg hne']
      | some t' =>
        cases t' with
        | leaf =>
          rw [mergeInto_cons_leaf_leaf acc rest hko] at hm
          exact ih htail hm
        | node sub =>
          rw [mergeInto_cons_leaf_node acc rest hko] at hm
          exact Option.noConfusion hm
    | node otherSub =>
      cases hko : getKey orig n with
      | none =>
        rw [mergeInto_cons_node_none acc rest otherSub hko] at hm
        cases hi : mergeInto ([] : Fields) [] otherSub <;> rw [hi] at hm
        · exact Option.noConfusion hm
        · rw [ih htail hm, getKey_setKey, if_neg hne']
      | some t' =>
        cases t' with
        | leaf =>
          rw [mergeInto_cons_node_leaf acc rest otherSub hko] at hm
          exact Option.noConfusion hm
        | node sub =>
          rw [mergeInto_cons_node_node acc rest otherSub hko] at hm
          cases hi : mergeInto sub sub otherSub <;> rw [hi] at hm
          · exact Option.noConfusion hm
          · rw [ih htail hm, getKey_setKey, if_neg hne']

/-- What a successful `$add` holds at a name that the second mask does
define, in terms of the entry shapes of the two inputs at that name. -/
theorem getKey_mergeInto_at_key {orig b : Fields} {name : String}
    {tb : FieldTree}
    (hnd : (keysOf b).Nodup) (hb : getKey b name = some tb) :
    ∀ {acc r : Fields}, mergeInto orig acc b = some r →
      mergeOutcome tb (getKey orig name) (getKey acc name) (getKey r name) := by
  induction b with
  | nil => simp [getKey] at hb
  | cons p rest ih =>
    intro acc r hm
    obtain ⟨n, t⟩ := p
    simp only [keysOf, List.map_cons, List.nodup_cons] at hnd
    by_cases hn : n = name
    · subst hn
      simp [getKey] at hb
      subst hb
      have hnotmem : n ∉ keysOf rest := hnd.1
      cases t with
      | leaf =>
        cases hko : getKey orig n with
        | none =>
          rw [mergeInto_cons_leaf_none acc rest hko] at hm
          show getKey r n = some FieldTree.leaf
          rw [getKey_mergeInto_of_notMem hnotmem hm, getKey_setKey, if_pos rfl]
        | some t' =>
          cases t' with
          | leaf =>
            rw [mergeInto_cons_leaf_leaf acc rest hko] at hm
            show getKey r n = getKey acc n
            exact getKey_mergeInto_of_notMem hnotmem hm
          | node sub =>
            rw [mergeInto_cons_leaf_node acc rest hko] at hm
            exact Option.noConfusion hm
      | node sb =>
        cases hko : getKey orig n with
        | none =>
          rw [mergeInto_cons_node_none acc rest sb hko] at hm
          cases hi : mergeInto ([] : Fields) [] sb <;> rw [hi] at hm
          · exact Option.noConfusion hm
          · rename_i m
            show ∃ m, mergeInto ([] : Fields) [] sb = some m ∧
              getKey r n = some (.node m)
            refine ⟨m, hi, ?_⟩
            rw [getKey_mergeInto_of_notMem hnotmem hm, getKey_setKey, if_pos rfl]
        | some t' =>
          cases t' with
          | leaf =>
            rw [mergeInto_cons_node_leaf acc rest sb hko] at hm
            exact Option.noConfusion hm
          | node sa =>
            rw [mergeInto_cons_node_node acc rest sb hko] at hm
            cases hi : mergeInto sa sa sb <;> rw [hi] at hm
            · exact Option.noConfusion hm
            · rename_i m
              show ∃ m, mergeInto sa sa sb = some m ∧
                getKey r n = some (.node m)
              refine ⟨m, hi, ?_⟩
              rw [getKey_mergeInto_of_notMem hnotmem hm, getKey_setKey,
                if_pos rfl]
    · rw [getKey, if_neg hn] at hb
      have hne' : ¬ n = name := hn
      have step :
          ∀ {acc' : Fields}, mergeInto orig acc' rest = some r →
            getKey acc' name = getKey acc name →
            mergeOutcome tb (getKey orig name) (getKey acc name)
              (getKey r name) := by
        intro acc' hm' hacc
        have hrec := ih hnd.2 hb hm'
        rw [hacc] at hrec
        exact hrec
      cases t with
      | leaf =>
        cases hko : getKey orig n with
        | none =>
          rw [mergeInto_cons_leaf_none acc rest hko] at hm
          exact step hm (by rw [getKey_setKey, if_neg hne'])
        | some t' =>
          cases t' with
          | leaf =>
            rw [mergeInto_cons_leaf_leaf acc rest hko] at hm
            exact step hm rfl
          | node sub =>
            rw [mergeInto_cons_leaf_node acc rest hko] at hm
            exact Option.noConfusion hm
      | node otherSub =>
        cases hko : getKey orig n with
        | none =>
          rw [mergeInto_cons_node_none acc rest otherSub hko] at hm
          cases hi : mergeInto ([] : Fields) [] otherSub <;> rw [hi] at hm
          · exact Option.noConfusion hm
          · exact step hm (by rw [getKey_setKey, if_neg hne'])
        | some t' =>
          cases t' with
          | leaf =>
            rw [mergeInto_cons_node_leaf acc rest otherSub hko] at hm
            exact Option.noConfusion hm
          | node sub =>
            rw [mergeInto_cons_node_node acc rest otherSub hko] at hm
            cases hi : mergeInto sub sub otherSub <;> rw [hi] at hm
            · exact Option.noConfusion hm
            · exact step hm (by rw [getKey_setKey, if_neg hne'])

/-! ### `$includes` lemmas and the union/subset property -/

theorem includesFields_cons (root : Fields) (name : String) (otherT : FieldTree)
    (rest : Fields) :
    includesFields root ((name, otherT) :: rest) =
      (match getKey root name with
        | none => false
        | some .leaf => includesFields root rest
        | some (.node sub) =>
          includesFields sub (entriesOf otherT) && includesFields root rest) := by
  rw [includesFields.eq_def]

/-- `$includes` holds exactly when every entry of the second structure
is matched in the first by a leaf, or by a nested entry that recursively
includes it. -/
theorem includesFields_iff (root other : Fields) :
    includesFields root other = true ↔
      ∀ p ∈ other, ∃ u, getKey root p.1 = some u ∧
        (u = FieldTree.leaf ∨ ∃ sub, u = FieldTree.node sub ∧
          includesFields sub (entriesOf p.2) = true) := by
  induction other with
  | nil => simp [includesFields]
  | cons p rest ih =>
    obtain ⟨name, otherT⟩ := p
    rw [includesFields_cons]
    cases hk : getKey root name with
    | none =>
      simp only [List.mem_cons, forall_eq_or_imp]
      constructor
      · intro h
        cases h
      · rintro ⟨⟨u, hu, _⟩, _⟩
        rw [hk] at hu
        cases hu
    | some u =>
      cases u with
      | leaf =>
        rw [ih]
        simp only [List.mem_cons, forall_eq_or_imp]
        constructor
        · intro h
          exact ⟨⟨.leaf, hk, Or.inl rfl⟩, h⟩
        · rintro ⟨_, h⟩
          exact h
      | node sub =>
        simp only [Bool.and_eq_true, List.mem_cons, forall_eq_or_imp, ih]
        constructor
        · rintro ⟨h1, h2⟩
          exact ⟨⟨.node sub, hk, Or.inr ⟨sub, rfl, h1⟩⟩, h2⟩
        · rintro ⟨⟨u, hu, hcase⟩, h2⟩
          rw [hk] at hu
          cases hu
          rcases hcase with h | ⟨sub', heq, h1⟩
          · cases h
          · cases heq
            exact ⟨h1, h2⟩

/-- A well-formed mask includes itself. -/
theorem includesFields_refl (fs : Fields) (hwf : wfFields fs = true) :
    includesFields fs fs = true := by
  generalize hN : sizeOf fs = N
  induction N using Nat.strong_induction_on generalizing fs with
  | _ N ih =>
    rw [includesFields_iff]
    rintro ⟨name, t⟩ hmem
    have hnd := wfFields_nodup hwf
    have hk := getKey_of_mem hmem hnd
    cases t with
    | leaf => exact ⟨.leaf, hk, Or.inl rfl⟩
    | node sub =>
      refine ⟨.node sub, hk, Or.inr ⟨sub, rfl, ?_⟩⟩
      show includesFields sub sub = true
      have h1 : sizeOf (FieldTree.node sub) < sizeOf fs := sizeOf_snd_lt_of_mem hmem
      have h2 : sizeOf (FieldTree.node sub) = 1 + sizeOf sub := by simp
      exact ih (sizeOf sub) (by omega) sub (wfFields_of_mem_node hmem hwf) rfl

/-- A successful `$add` of well-formed masks includes both inputs. -/
theorem mergeInto_includes (N : Nat) :
    ∀ (a b r : Fields), sizeOf b ≤ N → wfFields a = true →
      wfFields b = true → mergeInto a a b = some r →
      includesFields r a = true ∧ includesFields r b = true := by
  induction N with
  | zero =>
    intro a b r hle _ _ _
    exfalso
    cases b <;> simp at hle
  | succ N ih =>
    intro a b r hle hwa hwb hm
    have hndb := wfFields_nodup hwb
    constructor
    · rw [includesFields_iff]
      rintro ⟨name, t⟩ hmem
      have hka : getKey a name = some t := getKey_of_mem hmem (wfFields_nodup hwa)
      cases hkb : getKey b name with
      | none =>
        have hr : getKey r name = some t := by
          rw [getKey_mergeInto_of_notMem ((getKey_eq_none b name).mp hkb) hm]
          exact hka
        cases t with
        | leaf => exact ⟨.leaf, hr, Or.inl rfl⟩
        | node sub =>
          refine ⟨.node sub, hr, Or.inr ⟨sub, rfl, ?_⟩⟩
          exact includesFields_refl sub (wfFields_of_mem_node hmem hwa)
      | some tb =>
        have hout := getKey_mergeInto_at_key hndb hkb hm
        rw [hka] at hout
        cases t with
        | leaf =>
          cases tb with
          | leaf =>
            have hr : getKey r name = some FieldTree.leaf := hout
            exact ⟨.leaf, hr, Or.inl rfl⟩
          | node sb => exact False.elim hout
        | node sa =>
          cases tb with
          | leaf => exact False.elim hout
          | node sb =>
            have hout' : ∃ m, mergeInto sa sa sb = some m ∧
                getKey r name = some (.node m) := hout
            obtain ⟨m, hmerge, hr⟩ := hout'
            refine ⟨.node m, hr, Or.inr ⟨m, rfl, ?_⟩⟩
            have hmemb := getKey_mem hkb
            have h1 : sizeOf (FieldTree.node sb) < sizeOf b :=
              sizeOf_snd_lt_of_mem hmemb
            have h2 : sizeOf (FieldTree.node sb) = 1 + sizeOf sb := by simp
            have hwsa : wfFields sa = true := wfFields_getKey_node hwa hka
            have hwsb : wfFields sb = true := wfFields_getKey_node hwb hkb
            exact (ih sa sb m (by omega) hwsa hwsb hmerge).1
    · rw [includesFields_iff]
      rintro ⟨name, u⟩ hmem
      have hkb : getKey b name = some u := getKey_of_mem hmem hndb
      have hout := getKey_mergeInto_at_key hndb hkb hm
      have hmemb := getKey_mem hkb
      cases hka : getKey a name with
      | none =>
        rw [hka] at hout
        cases u with
        | leaf =>
          have hr : getKey r name = some FieldTree.leaf := hout
          exact ⟨.leaf, hr, Or.inl rfl⟩
        | node sb =>
          have hout' : ∃ m, mergeInto ([] : Fields) [] sb = some m ∧
              getKey r name = some (.node m) := hout
          obtain ⟨m, hmerge, hr⟩ := hout'
          refine ⟨.node m, hr, Or.inr ⟨m, rfl, ?_⟩⟩
          have h1 : sizeOf (FieldTree.node sb) < sizeOf b :=
            sizeOf_snd_lt_of_mem hmemb
          have h2 : sizeOf (FieldTree.node sb) = 1 + sizeOf sb := by simp
          have hwsb : wfFields sb = true := wfFields_getKey_node hwb hkb
          exact (ih [] sb m (by omega) wfFields_nil hwsb hmerge).2
      | some ta =>
        rw [hka] at hout
        cases u with
        | leaf =>
          cases ta with
          | leaf =>
            have hr : getKey r name = some FieldTree.leaf := hout
            exact ⟨.leaf, hr, Or.inl rfl⟩
          | node _ => exact False.elim hout
        | node sb =>
          cases ta with
          | leaf => exact False.elim hout
          | node sa =>
            have hout' : ∃ m, mergeInto sa sa sb = some m ∧
                getKey r name = some (.node m) := hout
            obtain ⟨m, hmerge, hr⟩ := hout'
            refine ⟨.node m, hr, Or.inr ⟨m, rfl, ?_⟩⟩
            have h1 : sizeOf (FieldTree.node sb) < sizeOf b :=
              sizeOf_snd_lt_of_mem hmemb
            have h2 : sizeOf (FieldTree.node sb) = 1 + sizeOf sb := by simp
            have hwsa : wfFields sa = true := wfFields_getKey_node hwa hka
            have hwsb : wfFields sb = true := wfFields_getKey_node hwb hkb
            exact (ih sa sb m (by omega) hwsa hwsb hmerge).2

end FieldMask

namespace Model

/-! ### Heap and instance basics -/

theorem lt_length_of_getElem? {H : Heap} {a : Addr} {i : Instance}
    (h : H[a]? = some i) : a < H.length := by
  rw [List.getElem?_eq_some] at h
  exact h.1

theorem getElem?_append_self {H : Heap} (i : Instance) :
    (H ++ [i])[H.length]? = some i :=
  List.getElem?_concat_length H i

/-- A primitive value contains no model references. -/
theorem valueModelRefs_of_isPrimitive {v : Value}
    (h : isPrimitive v = true) : valueModelRefs v = [] := by
  cases v <;> simp [valueModelRefs] <;> simp [isPrimitive] at h

/-- An instance all of whose field values are primitive has no
submodels. -/
theorem submodelRefs_eq_nil {i : Instance}
    (h : ∀ f ∈ i.cls.fields, isPrimitive (getFieldValue i f.name) = true) :
    submodelRefs i = [] := by
  unfold submodelRefs
  rw [List.flatMap_eq_nil_iff]
  intro f hf
  exact valueModelRefs_of_isPrimitive (h f hf)

/-! ### `_isChanged` lemmas -/

theorem isChangedF_zero (H : Heap) (a : Addr) : isChangedF 0 H a = false := rfl

theorem isChangedF_none {H : Heap} {a : Addr} (fuel : Nat)
    (hi : H[a]? = none) : isChangedF (fuel + 1) H a = false := by
  rw [isChangedF, hi]

theorem isChangedF_succ {H : Heap} {a : Addr} {i : Instance} (fuel : Nat)
    (hi : H[a]? = some i) :
    isChangedF (fuel + 1) H a =
      (i.savedFieldValues.isSome ||
        (submodelRefs i).any fun b => isChangedF fuel H b) := by
  rw [isChangedF, hi]

theorem isChangedF_mono {H : Heap} {a : Addr} :
    ∀ {m n : Nat}, m ≤ n → isChangedF m H a = true → isChangedF n H a = true := by
  intro m
  induction m generalizing a with
  | zero => intro n _ h; simp [isChangedF] at h
  | succ m ih =>
    intro n hle h
    obtain ⟨n, rfl⟩ : ∃ k, n = k + 1 := ⟨n - 1, by omega⟩
    cases hi : H[a]? with
    | none => rw [isChangedF_none m hi] at h; exact absurd h (by simp)
    | some i =>
      rw [isChangedF_succ m hi] at h
      rw [isChangedF_succ n hi]
      rcases Bool.or_eq_true_iff.mp h with hs | hany
      · rw [hs]; rfl
      · rw [List.any_eq_true] at hany
        obtain ⟨b, hb, hch⟩ := hany
        refine Bool.or_eq_true_iff.mpr (Or.inr ?_)
        rw [List.any_eq_true]
        exact ⟨b, hb, ih (by omega) hch⟩

/-- A pending snapshot map makes `_isChanged` true at any positive
fuel. -/
theorem isChangedF_of_saved {H : Heap} {a : Addr} {i : Instance} {fuel : Nat}
    (hi : H[a]? = some i) (hs : i.savedFieldValues.isSome = true) :
    isChangedF (fuel + 1) H a = true := by
  rw [isChangedF_succ fuel hi, hs]
  rfl

/-- Without a snapshot map and without submodels, `_isChanged` is false
at every fuel. -/
theorem isChangedF_flat_false {H : Heap} {a : Addr} {i : Instance}
    (hi : H[a]? = some i) (hs : i.savedFieldValues = none)
    (hsub : submodelRefs i = []) :
    ∀ fuel, isChangedF fuel H a = false := by
  intro fuel
  cases fuel with
  | zero => rfl
  | succ fuel => rw [isChangedF_succ fuel hi, hs, hsub]; rfl

theorem isChanged_of_saved {H : Heap} {a : Addr} {i : Instance}
    (hi : H[a]? = some i) (hs : i.savedFieldValues.isSome = true) :
    isChanged H a = true := by
  unfold isChanged
  exact isChangedF_of_saved hi hs

theorem isChanged_flat_false {H : Heap} {a : Addr} {i : Instance}
    (hi : H[a]? = some i) (hs : i.savedFieldValues = none)
    (hsub : submodelRefs i = []) :
    isChanged H a = false :=
  isChangedF_flat_false hi hs hsub _

/-! ### Field storage lemmas -/

theorem mem_setKey {β : Type} {fs : List (String × β)} {k : String} {v : β}
    {q : String × β} (h : q ∈ setKey fs k v) : q ∈ fs ∨ q = (k, v) := by
  induction fs with
  | nil =>
    rw [setKey] at h
    rcases List.mem_singleton.mp h with rfl
    exact Or.inr rfl
  | cons p rest ih =>
    obtain ⟨n, w⟩ := p
    rw [setKey] at h
    by_cases hn : n = k
    · rw [if_pos hn] at h
      rcases List.mem_cons.mp h with rfl | htail
      · exact Or.inr (by rw [hn])
      · exact Or.inl (List.mem_cons_of_mem _ htail)
    · rw [if_neg hn] at h
      rcases List.mem_cons.mp h with rfl | htail
      · exact Or.inl (List.mem_cons_self _ _)
      · rcases ih htail with hq | hq
        · exact Or.inl (List.mem_cons_of_mem _ hq)
        · exact Or.inr hq

/-- Writing entries in sequence leaves keys outside the batch
untouched. -/
theorem getKey_foldl_setKey_notMem {entries : List (String × Value)}
    {k : String} (h : k ∉ keysOf entries) :
    ∀ acc : List (String × Value),
      getKey (entries.foldl (fun fv p => setKey fv p.1 p.2) acc) k =
        getKey acc k := by
  induction entries with
  | nil => intro acc; rfl
  | cons p rest ih =>
    intro acc
    obtain ⟨n, v⟩ := p
    simp only [keysOf, List.map_cons, List.mem_cons] at h
    push_neg at h
    rw [List.foldl_cons, ih h.2, getKey_setKey,
      if_neg fun hh => h.1 hh.symm]

/-- Writing a batch of uniquely-keyed entries in sequence: a key of the
batch ends at its batch value, any other key keeps its prior value. -/
theorem getKey_foldl_setKey {entries : List (String × Value)} {k : String}
    (hnd : (keysOf entries).Nodup) :
    ∀ acc : List (String × Value),
      getKey (entries.foldl (fun fv p => setKey fv p.1 p.2) acc) k =
        (match getKey entries k with
          | some v => some v
          | none => getKey acc k) := by
  induction entries with
  | nil => intro acc; rfl
  | cons p rest ih =>
    intro acc
    obtain ⟨n, v⟩ := p
    simp only [keysOf, List.map_cons, List.nodup_cons] at hnd
    rw [List.foldl_cons]
    by_cases hn : n = k
    · subst hn
      have hrest : getKey rest n = none :=
        (getKey_eq_none rest n).mpr hnd.1
      rw [getKey_foldl_setKey_notMem hnd.1, getKey_setKey, if_pos rfl]
      simp [getKey, hrest]
    · rw [ih hnd.2, getKey]
      rw [if_neg hn]
      cases getKey rest k <;> simp [getKey_setKey, hn]

/-- `restoreSaved` is idempotent: restoring clears the snapshot map, so
a second restore is the identity. -/
theorem restoreSaved_restoreSaved (i : Instance) :
    restoreSaved (restoreSaved i) = restoreSaved i := by
  unfold restoreSaved
  cases h : i.savedFieldValues <;> simp [h]

theorem restoreSaved_some {i : Instance} {saved : List (String × Value)}
    (h : i.savedFieldValues = some saved) :
    restoreSaved i =
      { i with
        fieldValues := saved.foldl (fun fv p => setKey fv p.1 p.2) i.fieldValues
        savedFieldValues := none } := by
  unfold restoreSaved
  rw [h]

/-! ### Locality of the recursive rollback walk -/

theorem heapApprox_refl (H : Heap) : heapApprox H H := fun _ => Or.inl rfl

theorem heapApprox_trans {H1 H2 H3 : Heap} (h12 : heapApprox H1 H2)
    (h23 : heapApprox H2 H3) : heapApprox H1 H3 := by
  intro c
  rcases h23 c with h | h <;> rcases h12 c with h' | h'
  · exact Or.inl (h.trans h')
  · exact Or.inr (h.trans h')
  · exact Or.inr (h ▸ h' ▸ rfl)
  · refine Or.inr ?_
    rw [h, h']
    cases H1[c]? <;> simp [restoreSaved_restoreSaved]

theorem rollbackF_heapApprox :
    ∀ (fuel : Nat) (H : Heap) (a : Addr), heapApprox H (rollbackF fuel H a) := by
  intro fuel
  induction fuel with
  | zero => intro H a; exact heapApprox_refl H
  | succ fuel ih =>
    intro H a
    cases hi : H[a]? with
    | none =>
      rw [rollbackF, hi]
      exact heapApprox_refl H
    | some i =>
      rw [rollbackF, hi]
      have hstep : heapApprox H (H.set a (restoreSaved i)) := by
        intro c
        by_cases hc : a = c
        · subst hc
          refine Or.inr ?_
          rw [List.getElem?_set_self (lt_length_of_getElem? hi), hi]
          rfl
        · exact Or.inl (List.getElem?_set_ne hc)
      have hfold :
          ∀ (refs : List Addr) (H0 : Heap),
            heapApprox H0 (refs.foldl (fun h b => rollbackF fuel h b) H0) := by
        intro refs
        induction refs with
        | nil => intro H0; exact heapApprox_refl H0
        | cons b rest ihr =>
          intro H0
          rw [List.foldl_cons]
          exact heapApprox_trans (ih H0 b) (ihr (rollbackF fuel H0 b))
      exact heapApprox_trans hstep (hfold _ _)

theorem foldl_rollbackF_heapApprox (fuel : Nat) (refs : List Addr) (H0 : Heap) :
    heapApprox H0 (refs.foldl (fun h b => rollbackF fuel h b) H0) := by
  induction refs generalizing H0 with
  | nil => exact heapApprox_refl H0
  | cons b rest ihr =>
    rw [List.foldl_cons]
    exact heapApprox_trans (rollbackF_heapApprox fuel H0 b)
      (ihr (rollbackF fuel H0 b))

/-! ### One-step unfolding of the heap operations -/

theorem setFieldValueH_some {H : Heap} {a : Addr} {i : Instance}
    (f : FieldDef) (v : Value) (d : Bool) (hi : H[a]? = some i) :
    setFieldValueH H a f v d = H.set a (setFieldValue f v d i) := by
  rw [setFieldValueH, hi]

theorem rollbackF_succ {H : Heap} {a : Addr} {i : Instance} (fuel : Nat)
    (hi : H[a]? = some i) :
    rollbackF (fuel + 1) H a =
      (submodelRefs (restoreSaved i)).foldl (fun h b => rollbackF fuel h b)
        (H.set a (restoreSaved i)) := by
  rw [rollbackF, hi]

theorem commitF_succ {H : Heap} {a : Addr} {i : Instance} (fuel : Nat)
    (hi : H[a]? = some i) :
    commitF (fuel + 1) H a =
      (submodelRefs { i with savedFieldValues := none }).foldl
        (fun h b => commitF fuel h b)
        (H.set a { i with savedFieldValues := none }) := by
  rw [commitF, hi]

/-! ### `_setFieldValue` lemmas -/

theorem setKey_setKey {β : Type} (fs : List (String × β)) (k : String)
    (x y : β) : setKey (setKey fs k x) k y = setKey fs k y := by
  induction fs with
  | nil => simp [setKey]
  | cons p rest ih =>
    obtain ⟨n, w⟩ := p
    by_cases hn : n = k <;> simp [setKey, hn, ih]

theorem keysOf_setKey_nodup {β : Type} {fs : List (String × β)} {k : String}
    {v : β} (h : (keysOf fs).Nodup) : (keysOf (setKey fs k v)).Nodup := by
  induction fs with
  | nil => simp [setKey, keysOf]
  | cons p rest ih =>
    obtain ⟨n, w⟩ := p
    simp only [keysOf, List.map_cons, List.nodup_cons] at h
    by_cases hn : n = k
    · subst hn
      have hsk : setKey ((n, w) :: rest) n v = (n, v) :: rest := by
        simp [setKey]
      rw [hsk]
      simp only [keysOf, List.map_cons, List.nodup_cons]
      exact h
    · simp only [setKey, if_neg hn, keysOf, List.map_cons, List.nodup_cons]
      refine ⟨?_, ih h.2⟩
      intro hmem
      rcases List.mem_map.mp hmem with ⟨q, hq, hfst⟩
      rcases mem_setKey hq with hq2 | hq2
      · exact h.1 (List.mem_map.mpr ⟨q, hq2, hfst⟩)
      · subst hq2
        exact hn hfst.symm

theorem setFieldValue_cls (f : FieldDef) (v : Value) (d : Bool)
    (i : Instance) : (setFieldValue f v d i).cls = i.cls := by
  cases d <;> rfl

theorem setFieldValue_fieldValues (f : FieldDef) (v : Value) (d : Bool)
    (i : Instance) :
    (setFieldValue f v d i).fieldValues =
      setKey i.fieldValues f.name (createValue f v d) := by
  cases d <;> rfl

theorem setFieldValue_saved_deser (f : FieldDef) (v : Value) (i : Instance) :
    (setFieldValue f v true i).savedFieldValues = i.savedFieldValues := rfl

theorem setFieldValue_saved (f : FieldDef) (v : Value) (i : Instance) :
    (setFieldValue f v false i).savedFieldValues =
      some (setKey (i.savedFieldValues.getD []) f.name
        (getFieldValue i f.name)) := rfl

theorem getFieldValue_setFieldValue_self (f : FieldDef) (v : Value) (d : Bool)
    (i : Instance) :
    getFieldValue (setFieldValue f v d i) f.name = createValue f v d := by
  rw [getFieldValue, setFieldValue_fieldValues, getKey_setKey, if_pos rfl]
  rfl

theorem getFieldValue_setFieldValue_ne {n : String} (f : FieldDef) (v : Value)
    (d : Bool) (i : Instance) (hne : f.name ≠ n) :
    getFieldValue (setFieldValue f v d i) n = getFieldValue i n := by
  rw [getFieldValue, setFieldValue_fieldValues, getKey_setKey, if_neg hne]
  rfl

/-- A flat (all-primitive) value store stays flat under an assignment of
a primitive value. -/
theorem flat_setFieldValue {f : FieldDef} {v : Value} {d : Bool}
    {i : Instance} (hv : isPrimitive v = true)
    (hflat : ∀ p ∈ i.fieldValues, isPrimitive p.2 = true) :
    ∀ p ∈ (setFieldValue f v d i).fieldValues, isPrimitive p.2 = true := by
  intro p hp
  rw [setFieldValue_fieldValues] at hp
  rcases mem_setKey hp with hp2 | hp2
  · exact hflat p hp2
  · subst hp2
    exact hv

theorem isPrimitive_getFieldValue {i : Instance}
    (hflat : ∀ p ∈ i.fieldValues, isPrimitive p.2 = true) (name : String) :
    isPrimitive (getFieldValue i name) = true := by
  rw [getFieldValue]
  cases hk : getKey i.fieldValues name with
  | none => rfl
  | some v => exact hflat _ (getKey_mem hk)

/-- Restoring primitive snapshots over a flat store leaves it flat. -/
theorem flat_foldl_setKey {entries : List (String × Value)}
    (he : ∀ p ∈ entries, isPrimitive p.2 = true) :
    ∀ (acc : List (String × Value)),
      (∀ p ∈ acc, isPrimitive p.2 = true) →
      ∀ p ∈ entries.foldl (fun fv q => setKey fv q.1 q.2) acc,
        isPrimitive p.2 = true := by
  induction entries with
  | nil => intro acc hacc; exact hacc
  | cons q rest ih =>
    intro acc hacc
    rw [List.foldl_cons]
    refine ih (fun p hp => he p (List.mem_cons_of_mem _ hp)) _ ?_
    intro p hp
    rcases mem_setKey hp with hp2 | hp2
    · exact hacc p hp2
    · subst hp2
      exact he q (List.mem_cons_self _ _)

/-! ### Population and defaults -/

theorem populate_cons (C : ModelClass) (p : String × Value)
    (rest : List (String × Value)) (d : Bool) (i : Instance) :
    populate C (p :: rest) d i =
      populate C rest d
        (match (if d then getFieldBySerializedName C p.1
                else getField C p.1) with
          | some f => setFieldValue f p.2 d i
          | none => i) := by
  rw [populate, populate, List.foldl_cons]

theorem populate_cls (C : ModelClass) (entries : List (String × Value))
    (d : Bool) (i : Instance) : (populate C entries d i).cls = i.cls := by
  induction entries generalizing i with
  | nil => rfl
  | cons p rest ih =>
    rw [populate_cons]
    cases (if d then getFieldBySerializedName C p.1 else getField C p.1) with
    | none => exact ih i
    | some f => exact (ih (setFieldValue f p.2 d i)).trans (setFieldValue_cls ..)

theorem populate_saved_deser (C : ModelClass)
    (entries : List (String × Value)) (i : Instance) :
    (populate C entries true i).savedFieldValues = i.savedFieldValues := by
  induction entries generalizing i with
  | nil => rfl
  | cons p rest ih =>
    rw [populate_cons]
    cases (if true = true then getFieldBySerializedName C p.1
           else getField C p.1) with
    | none => exact ih i
    | some f =>
      exact (ih (setFieldValue f p.2 true i)).trans
        (setFieldValue_saved_deser f p.2 i)

theorem flat_populate {C : ModelClass} {entries : List (String × Value)}
    {d : Bool} (he : ∀ p ∈ entries, isPrimitive p.2 = true) :
    ∀ (i : Instance), (∀ p ∈ i.fieldValues, isPrimitive p.2 = true) →
      ∀ p ∈ (populate C entries d i).fieldValues, isPrimitive p.2 = true := by
  induction entries with
  | nil => intro i hi; exact hi
  | cons q rest ih =>
    intro i hi
    rw [populate_cons]
    have hrest : ∀ p ∈ rest, isPrimitive p.2 = true :=
      fun p hp => he p (List.mem_cons_of_mem _ hp)
    have hq : isPrimitive q.2 = true := he q (List.mem_cons_self _ _)
    cases (if d then getFieldBySerializedName C q.1 else getField C q.1) with
    | none => exact ih hrest i hi
    | some f => exact ih hrest (setFieldValue f q.2 d i) (flat_setFieldValue hq hi)

/-! ### Defaults are applied through the snapshotting mutation path -/

theorem applyDefaultsStep_none {f : FieldDef} (i : Instance)
    (hd : f.default = none) : applyDefaultsStep f i = i := by
  unfold applyDefaultsStep
  rw [hd]

theorem applyDefaultsStep_some {f : FieldDef} {d : DefaultChain}
    (i : Instance) (hd : f.default = some d) :
    applyDefaultsStep f i =
      (if isUndef (getFieldValue i f.name) then
        (if isUndef (resolveDefault d) then i
         else setFieldValue f (resolveDefault d) false i)
       else i) := by
  unfold applyDefaultsStep
  rw [hd]

theorem applyDefaultsStep_saved_mono {f : FieldDef} {i : Instance}
    (h : i.savedFieldValues.isSome = true) :
    (applyDefaultsStep f i).savedFieldValues.isSome = true := by
  cases hdd : f.default with
  | none => rw [applyDefaultsStep_none i hdd]; exact h
  | some d =>
    rw [applyDefaultsStep_some i hdd]
    by_cases hc : isUndef (getFieldValue i f.name) = true
    · rw [if_pos hc]
      by_cases hv : isUndef (resolveDefault d) = true
      · rw [if_pos hv]; exact h
      · rw [if_neg hv, setFieldValue_saved]; rfl
    · rw [if_neg hc]; exact h

theorem applyDefaultsStep_sets {f : FieldDef} {i : Instance} {d : DefaultChain}
    (hd : f.default = some d) (hres : isUndef (resolveDefault d) = false)
    (hcur : isUndef (getFieldValue i f.name) = true) :
    (applyDefaultsStep f i).savedFieldValues.isSome = true := by
  rw [applyDefaultsStep_some i hd, if_pos hcur,
    if_neg (by simp [hres]), setFieldValue_saved]
  rfl

theorem applyDefaultsStep_getFieldValue_ne {f : FieldDef} {i : Instance}
    {n : String} (hne : f.name ≠ n) :
    getFieldValue (applyDefaultsStep f i) n = getFieldValue i n := by
  cases hdd : f.default with
  | none => rw [applyDefaultsStep_none i hdd]
  | some d =>
    rw [applyDefaultsStep_some i hdd]
    by_cases hc : isUndef (getFieldValue i f.name) = true
    · rw [if_pos hc]
      by_cases hv : isUndef (resolveDefault d) = true
      · rw [if_pos hv]
      · rw [if_neg hv]
        exact getFieldValue_setFieldValue_ne f _ false i hne
    · rw [if_neg hc]

theorem foldl_applyDefaultsStep_saved_mono {i : Instance}
    (fields : List FieldDef) (h : i.savedFieldValues.isSome = true) :
    (fields.foldl (fun i f => applyDefaultsStep f i) i).savedFieldValues.isSome
      = true := by
  induction fields generalizing i with
  | nil => exact h
  | cons g rest ih =>
    rw [List.foldl_cons]
    exact ih (applyDefaultsStep_saved_mono h)

theorem foldl_applyDefaultsStep_saved {i : Instance} {fields : List FieldDef}
    (hnd : (fields.map FieldDef.name).Nodup)
    (hf : ∃ f ∈ fields, (∃ d, f.default = some d ∧
      isUndef (resolveDefault d) = false) ∧
      isUndef (getFieldValue i f.name) = true) :
    (fields.foldl (fun i f => applyDefaultsStep f i) i).savedFieldValues.isSome
      = true := by
  induction fields generalizing i with
  | nil => simp at hf
  | cons g rest ih =>
    simp only [List.map_cons, List.nodup_cons] at hnd
    rw [List.foldl_cons]
    obtain ⟨f, hfmem, ⟨d, hd, hres⟩, hcur⟩ := hf
    rcases List.mem_cons.mp hfmem with rfl | hftail
    · exact foldl_applyDefaultsStep_saved_mono rest
        (applyDefaultsStep_sets hd hres hcur)
    · refine ih hnd.2 ⟨f, hftail, ⟨d, hd, hres⟩, ?_⟩
      have hne : g.name ≠ f.name := by
        intro he
        exact hnd.1 (he ▸ List.mem_map.mpr ⟨f, hftail, rfl⟩)
      rw [applyDefaultsStep_getFieldValue_ne hne]
      exact hcur

theorem applyDefaults_saved {C : ModelClass} {i : Instance}
    (hnd : (C.fields.map FieldDef.name).Nodup)
    (hf : ∃ f ∈ C.fields, (∃ d, f.default = some d ∧
      isUndef (resolveDefault d) = false) ∧
      isUndef (getFieldValue i f.name) = true) :
    (applyDefaults C i).savedFieldValues.isSome = true :=
  foldl_applyDefaultsStep_saved hnd hf

/-! ### Submodel membership and `fieldIsChanged` -/

theorem mem_submodelRefs {i : Instance} {f : FieldDef} {b : Addr}
    (hf : f ∈ i.cls.fields) (hb : b ∈ valueModelRefs (getFieldValue i f.name)) :
    b ∈ submodelRefs i := by
  unfold submodelRefs
  rw [List.mem_flatMap]
  exact ⟨f, hf, hb⟩

theorem fieldIsChanged_some {H : Heap} {a : Addr} {i : Instance}
    (f : FieldDef) (hi : H[a]? = some i) :
    fieldIsChanged H a f =
      ((match i.savedFieldValues with
        | some saved => (keysOf saved).contains f.name
        | none => false) ||
       (!(isUndef (getFieldValue i f.name)) &&
         (valueModelRefs (getFieldValue i f.name)).any fun b =>
           isChanged H b)) := by
  rw [fieldIsChanged, hi]

theorem fieldIsChanged_of_submodel {H : Heap} {a : Addr} {i : Instance}
    {f : FieldDef} {b : Addr} (hi : H[a]? = some i)
    (hb : b ∈ valueModelRefs (getFieldValue i f.name))
    (hch : isChanged H b = true) :
    fieldIsChanged H a f = true := by
  rw [fieldIsChanged_some f hi]
  refine Bool.or_eq_true_iff.mpr (Or.inr (Bool.and_eq_true_iff.mpr ⟨?_, ?_⟩))
  · cases hu : getFieldValue i f.name with
    | undef =>
      rw [hu] at hb
      exact absurd hb (by simp [valueModelRefs])
    | nullV => rfl
    | str _ => rfl
    | num _ => rfl
    | boolV _ => rfl
    | obj _ => rfl
    | arr _ => rfl
    | ref _ => rfl
  · rw [List.any_eq_true]
    exact ⟨b, hb, hch⟩

/-! ### One-step unfolding of the constructor -/

theorem construct_undef (reg : Registry) (C : ModelClass) (d : Bool)
    (H : Heap) : construct reg C .undef d H = constructPlain C .undef d H :=
  rfl

theorem constructPlain_undef_false (C : ModelClass) (H : Heap) :
    constructPlain C .undef false H =
      .ok (H ++ [applyDefaults C ⟨C, [], none⟩], H.length) :=
  rfl

theorem construct_obj_untagged {entries : List (String × Value)}
    (reg : Registry) (C : ModelClass) (d : Bool) (H : Heap)
    (htag : tagOf entries = none) :
    construct reg C (.obj entries) d H =
      constructPlain C (.obj entries) d H := by
  simp only [construct]
  rw [htag]

theorem constructPlain_obj_deser (C : ModelClass)
    (entries : List (String × Value)) (H : Heap) :
    constructPlain C (.obj entries) true H =
      .ok (H ++ [populate C entries true ⟨C, [], none⟩], H.length) :=
  rfl

theorem construct_ref_incompatible {H : Heap} {b : Addr} {inst : Instance}
    (reg : Registry) (C : ModelClass) (d : Bool) (hb : H[b]? = some inst)
    (hiso : isOfType inst C.name = false) :
    construct reg C (.ref b) d H = .error .typeMismatch := by
  show constructPlain C (.ref b) d H = .error .typeMismatch
  rw [constructPlain, hb]
  show (if isOfType inst C.name then Except.ok (H, b)
        else Except.error Err.typeMismatch) = Except.error Err.typeMismatch
  rw [hiso]
  rfl

/-! ### Serialization with the default options -/

theorem isUndef_eq {v : Value} (h : isUndef v = true) : v = .undef := by
  cases v <;> first | rfl | simp [isUndef] at h

theorem foldl_skip_append {α β : Type} (q : α → Bool) (g : α → β) :
    ∀ (L : List α) (acc : List β),
      L.foldl (fun acc x => if q x then acc else acc ++ [g x]) acc =
        acc ++ (L.filter fun x => !(q x)).map g := by
  intro L
  induction L with
  | nil => intro acc; simp
  | cons x rest ih =>
    intro acc
    rw [List.foldl_cons]
    by_cases hq : q x = true
    · rw [if_pos hq, ih]
      simp [List.filter_cons, hq]
    · rw [if_neg hq, ih]
      simp [List.filter_cons, hq]

theorem serialize_some {H : Heap} {a : Addr} {i : Instance}
    (opts : SerializeOpts) (hi : H[a]? = some i) :
    serialize H a opts = some (.obj (("_type", .str i.cls.name) ::
      i.cls.fields.foldl
        (fun acc f =>
          if includeField H a opts f then
            let v := serializeValue f (getFieldValue i f.name) opts
            if isUndef v then acc else acc ++ [(effectiveSerializedName f, v)]
          else acc)
        [])) := by
  rw [serialize, hi]

/-- The wire entry list produced by `serialize` with its default
options: every field with a defined value, in registry order, keyed by
its serialized name. -/
def wireEntries (i : Instance) : List (String × Value) :=
  (i.cls.fields.filter fun f => !(isUndef (getFieldValue i f.name))).map
    fun f => (effectiveSerializedName f, getFieldValue i f.name)

theorem serialize_default {H : Heap} {a : Addr} {i : Instance}
    (hi : H[a]? = some i) :
    serialize H a {} = some (.obj (("_type", .str i.cls.name) ::
      wireEntries i)) := by
  rw [serialize_some {} hi]
  have h := foldl_skip_append (fun f => isUndef (getFieldValue i f.name))
    (fun f => (effectiveSerializedName f, getFieldValue i f.name))
    i.cls.fields []
  rw [List.nil_append] at h
  exact congrArg (fun L => some (Value.obj (("_type", .str i.cls.name) :: L))) h

theorem getFieldBySerializedName_eq_find (C : ModelClass) (nm : String) :
    getFieldBySerializedName C nm =
      C.fields.find? fun f => effectiveSerializedName f == nm := by
  unfold getFieldBySerializedName
  congr 1
  funext f
  cases h : f.serializedName <;> simp [effectiveSerializedName, h]

theorem find?_eff_eq_some :
    ∀ (fs : List FieldDef) (f : FieldDef), f ∈ fs →
      (fs.map effectiveSerializedName).Nodup →
      (fs.find? fun g =>
        effectiveSerializedName g == effectiveSerializedName f) = some f := by
  intro fs
  induction fs with
  | nil => intro f hf _; exact absurd hf (List.not_mem_nil f)
  | cons g rest ih =>
    intro f hf hnd
    rw [List.map_cons, List.nodup_cons] at hnd
    rcases List.mem_cons.mp hf with h1 | h1
    · subst h1
      rw [List.find?_cons_of_pos _ (by simp)]
    · have hne : effectiveSerializedName g ≠ effectiveSerializedName f := by
        intro he
        exact hnd.1 (List.mem_map.mpr ⟨f, h1, he.symm⟩)
      rw [List.find?_cons_of_neg _ (by simp [hne])]
      exact ih f h1 hnd.2

/-- A field is found back from its effective serialized name when the
class declares no duplicate wire names. -/
theorem getFieldBySerializedName_eff {C : ModelClass} {f : FieldDef}
    (hf : f ∈ C.fields)
    (hnds : (C.fields.map effectiveSerializedName).Nodup) :
    getFieldBySerializedName C (effectiveSerializedName f) = some f := by
  rw [getFieldBySerializedName_eq_find]
  exact find?_eff_eq_some C.fields f hf hnds

theorem getKey_wire_aux_notMem {i : Instance} {nm : String} :
    ∀ (fs : List FieldDef), nm ∉ fs.map effectiveSerializedName →
      getKey ((fs.filter fun g => !(isUndef (getFieldValue i g.name))).map
        fun g => (effectiveSerializedName g, getFieldValue i g.name)) nm =
        none := by
  intro fs
  induction fs with
  | nil => intro _; rfl
  | cons g rest ih =>
    intro h
    rw [List.map_cons, List.mem_cons] at h
    push_neg at h
    rw [List.filter_cons]
    cases hu : isUndef (getFieldValue i g.name) with
    | true =>
      rw [if_neg (by simp [hu])]
      exact ih h.2
    | false =>
      rw [if_pos (by simp [hu]), List.map_cons]
      have hne : ¬(effectiveSerializedName g = nm) := fun he => h.1 he.symm
      simp only [getKey, if_neg hne]
      exact ih h.2

theorem getKey_wire_aux :
    ∀ {i : Instance} (fs : List FieldDef) (f : FieldDef), f ∈ fs →
      (fs.map effectiveSerializedName).Nodup →
      getKey ((fs.filter fun g => !(isUndef (getFieldValue i g.name))).map
          fun g => (effectiveSerializedName g, getFieldValue i g.name))
        (effectiveSerializedName f) =
      (if isUndef (getFieldValue i f.name) then none
       else some (getFieldValue i f.name)) := by
  intro i fs
  induction fs with
  | nil => intro f hf _; exact absurd hf (List.not_mem_nil f)
  | cons g rest ih =>
    intro f hf hnd
    rw [List.map_cons, List.nodup_cons] at hnd
    rw [List.filter_cons]
    rcases List.mem_cons.mp hf with h1 | h1
    · subst h1
      cases hu : isUndef (getFieldValue i f.name) with
      | true =>
        rw [if_neg (by simp), if_pos rfl]
        exact getKey_wire_aux_notMem rest hnd.1
      | false =>
        rw [if_pos (by simp [hu]), List.map_cons]
        simp [getKey, hu]
    · have hne : effectiveSerializedName g ≠ effectiveSerializedName f := by
        intro he
        exact hnd.1 (List.mem_map.mpr ⟨f, h1, he.symm⟩)
      cases hu : isUndef (getFieldValue i g.name) with
      | true =>
        rw [if_neg (by simp [hu])]
        exact ih f h1 hnd.2
      | false =>
        rw [if_pos (by simp [hu]), List.map_cons]
        simp only [getKey, if_neg hne]
        exact ih f h1 hnd.2

/-- Looking up a field's effective serialized name in the wire entry
list finds the field's value exactly when that value is defined. -/
theorem getKey_wireEntries {i : Instance} {f : FieldDef}
    (hf : f ∈ i.cls.fields)
    (hnds : (i.cls.fields.map effectiveSerializedName).Nodup) :
    getKey (wireEntries i) (effectiveSerializedName f) =
      (if isUndef (getFieldValue i f.name) then none
       else some (getFieldValue i f.name)) :=
  getKey_wire_aux i.cls.fields f hf hnds

theorem populate_cons_deser (C : ModelClass) (k : String) (v : Value)
    (rest : List (String × Value)) (i : Instance) :
    populate C ((k, v) :: rest) true i =
      populate C rest true
        (match getFieldBySerializedName C k with
          | some f => setFieldValue f v true i
          | none => i) := by
  rw [populate_cons]
  rfl

/-- What deserializing population stores under a field's declared name:
the entry keyed by the field's serialized name when the input carries
one, the prior value otherwise (no duplicate declared or wire names, no
duplicate input keys). -/
theorem getKey_populate {C : ModelClass} {f : FieldDef}
    (hf : f ∈ C.fields)
    (hndn : (C.fields.map FieldDef.name).Nodup)
    (hnds : (C.fields.map effectiveSerializedName).Nodup) :
    ∀ (entries : List (String × Value)), (keysOf entries).Nodup →
      ∀ (i : Instance),
      getKey (populate C entries true i).fieldValues f.name =
        (match getKey entries (effectiveSerializedName f) with
         | some v => some v
         | none => getKey i.fieldValues f.name) := by
  intro entries
  induction entries with
  | nil => intro _ i; rfl
  | cons p rest ih =>
    intro hnd i
    obtain ⟨k, v⟩ := p
    simp only [keysOf, List.map_cons, List.nodup_cons] at hnd
    by_cases hk : k = effectiveSerializedName f
    · subst hk
      have hlook : getFieldBySerializedName C (effectiveSerializedName f) =
          some f := getFieldBySerializedName_eff hf hnds
      rw [populate_cons_deser, hlook]
      have h2 := ih hnd.2 (setFieldValue f v true i)
      show getKey (populate C rest true
        (setFieldValue f v true i)).fieldValues f.name = _
      rw [h2]
      have hr : getKey rest (effectiveSerializedName f) = none :=
        (getKey_eq_none rest (effectiveSerializedName f)).mpr hnd.1
      rw [hr]
      have h4 : getKey ((effectiveSerializedName f, v) :: rest)
          (effectiveSerializedName f) = some v := by simp [getKey]
      rw [h4]
      show getKey (setFieldValue f v true i).fieldValues f.name = some v
      rw [setFieldValue_fieldValues, getKey_setKey, if_pos rfl]
      rfl
    · have h3 : getKey ((k, v) :: rest) (effectiveSerializedName f) =
          getKey rest (effectiveSerializedName f) := by
        simp [getKey, hk]
      cases hlook : getFieldBySerializedName C k with
      | none =>
        rw [populate_cons_deser, hlook]
        have h2 := ih hnd.2 i
        show getKey (populate C rest true i).fieldValues f.name = _
        rw [h2, h3]
      | some g =>
        rw [getFieldBySerializedName_eq_find] at hlook
        have hgm : g ∈ C.fields := List.mem_of_find?_eq_some hlook
        have hgeff : effectiveSerializedName g = k := by
          have hp := List.find?_some hlook
          exact eq_of_beq hp
        have hgname : g.name ≠ f.name := by
          intro he
          have hgf : g = f := List.inj_on_of_nodup_map hndn hgm hf he
          rw [hgf] at hgeff
          exact hk hgeff.symm
        rw [populate_cons_deser]
        rw [getFieldBySerializedName_eq_find, hlook]
        have h2 := ih hnd.2 (setFieldValue g v true i)
        show getKey (populate C rest true
          (setFieldValue g v true i)).fieldValues f.name = _
        rw [h2, h3]
        cases hr : getKey rest (effectiveSerializedName f) with
        | some w => rfl
        | none =>
          show getKey (setFieldValue g v true i).fieldValues f.name =
            getKey i.fieldValues f.name
          rw [setFieldValue_fieldValues, getKey_setKey, if_neg hgname]

/-! ### Round-trip plumbing: tags and tagged construction -/

theorem tagOf_cons_str (t : String) (L : List (String × Value)) :
    tagOf (("_type", .str t) :: L) = some (.str t) := rfl

theorem stripTag_eq_self {L : List (String × Value)}
    (h : ∀ p ∈ L, p.1 ≠ "_type") : stripTag L = L := by
  unfold stripTag
  apply List.filter_eq_self.mpr
  intro p hp
  simp [h p hp]

theorem stripTag_cons_tag (w : Value) {L : List (String × Value)}
    (h : ∀ p ∈ L, p.1 ≠ "_type") :
    stripTag (("_type", w) :: L) = L := by
  unfold stripTag
  rw [List.filter_cons, if_neg (by simp)]
  exact stripTag_eq_self h

/-- Two instances of the same class with the same field values
serialize to the same wire entries. -/
theorem wireEntries_congr {i j : Instance} (hc : i.cls = j.cls)
    (hv : ∀ f ∈ j.cls.fields,
      getFieldValue i f.name = getFieldValue j f.name) :
    wireEntries i = wireEntries j := by
  unfold wireEntries
  rw [hc]
  have hfil : (j.cls.fields.filter
        fun f => !(isUndef (getFieldValue i f.name))) =
      (j.cls.fields.filter fun f => !(isUndef (getFieldValue j f.name))) :=
    List.filter_congr fun f hf => by rw [hv f hf]
  rw [hfil]
  refine List.map_congr_left ?_
  intro f hf
  rw [hv f (List.mem_filter.mp hf).1]

/-- The `_type` branch of the constructor: resolve the tag through the
registry, re-enter the constructor on the stripped payload, and check
the produced instance against the outer class. -/
theorem construct_obj_tagged {entries : List (String × Value)} {t : String}
    {C2 : ModelClass} {H2 : Heap} {a2 : Addr} {inst : Instance}
    (reg : Registry) (C : ModelClass) (d : Bool) (H : Heap)
    (htag : tagOf entries = some (.str t))
    (hmod : getModel reg t = .ok C2)
    (hplain : constructPlain C2 (.obj (stripTag entries)) d H = .ok (H2, a2))
    (hinst : H2[a2]? = some inst)
    (hiso : isOfType inst C.name = true) :
    construct reg C (.obj entries) d H = .ok (H2, a2) := by
  simp only [construct]
  rw [htag]
  show (match getModel reg t with
        | .error e => .error e
        | .ok C3 =>
          match constructPlain C3 (.obj (stripTag entries)) d H with
          | .error e => .error e
          | .ok (H3, a3) =>
            match H3[a3]? with
            | none => Except.error Err.typeError
            | some inst =>
              if isOfType inst C.name then Except.ok (H3, a3)
              else Except.error Err.typeMismatch) = Except.ok (H2, a2)
  rw [hmod]
  show (match constructPlain C2 (.obj (stripTag entries)) d H with
        | .error e => .error e
        | .ok (H3, a3) =>
          match H3[a3]? with
          | none => Except.error Err.typeError
          | some inst =>
            if isOfType inst C.name then Except.ok (H3, a3)
            else Except.error Err.typeMismatch) = Except.ok (H2, a2)
  rw [hplain]
  show (match H2[a2]? with
        | none => Except.error Err.typeError
        | some inst =>
          if isOfType inst C.name then Except.ok (H2, a2)
          else Except.error Err.typeMismatch) = Except.ok (H2, a2)
  rw [hinst]
  show (if isOfType inst C.name then Except.ok (H2, a2)
        else Except.error Err.typeMismatch) = Except.ok (H2, a2)
  rw [hiso]
  rfl

end Model

/-! ## The claims -/

open FieldMask Model

/-- Claim C1: for every Model `p` holding a Model `s` as (or inside an
array in) a field value, if a field of `s` has been mutated (so `s` has
a pending snapshot) while `p`'s own field is not reassigned, then
`p.isChanged()` returns true and `p.fieldIsChanged(f)` returns true for
the field `f` holding `s`. -/
theorem claim_C1_transitive_change (H : Heap) (a b : Addr) (p s : Instance)
    (f : FieldDef) (hp : H[a]? = some p) (hs : H[b]? = some s)
    (hf : f ∈ p.cls.fields)
    (hval : getFieldValue p f.name = .ref b ∨
      ∃ vs, getFieldValue p f.name = .arr vs ∧ Value.ref b ∈ vs)
    (hpend : s.savedFieldValues.isSome = true)
    (hnore : ∀ saved, p.savedFieldValues = some saved →
      getKey saved f.name = none) :
    isChanged H a = true ∧ fieldIsChanged H a f = true := by
  have hlen : a < H.length := lt_length_of_getElem? hp
  have hbref : b ∈ valueModelRefs (getFieldValue p f.name) := by
    rcases hval with h | ⟨vs, hv, hmem⟩
    · rw [h]
      exact List.mem_singleton.mpr rfl
    · rw [hv]
      exact List.mem_filterMap.mpr ⟨.ref b, hmem, rfl⟩
  have hchb : isChanged H b = true := isChanged_of_saved hs hpend
  constructor
  · have h2 : isChangedF 2 H a = true := by
      rw [isChangedF_succ 1 hp]
      refine Bool.or_eq_true_iff.mpr (Or.inr ?_)
      rw [List.any_eq_true]
      exact ⟨b, mem_submodelRefs hf hbref, isChangedF_of_saved hs hpend⟩
    show isChangedF (H.length + 1) H a = true
    have hle : (2 : Nat) ≤ H.length + 1 :=
      Nat.succ_le_succ (Nat.succ_le_of_lt (Nat.lt_of_le_of_lt (Nat.zero_le a) hlen))
    exact isChangedF_mono hle h2
  · exact fieldIsChanged_of_submodel hp hbref hchb

theorem claim_C1_witness :
    isChanged
      [⟨⟨"S", ["S", "Model"], [⟨"y", none, none, false⟩]⟩,
        [("y", .num 2)], some [("y", .num 1)]⟩,
       ⟨⟨"P", ["P", "Model"], [⟨"g", none, none, false⟩]⟩,
        [("g", .ref 0)], none⟩] 1 = true ∧
    fieldIsChanged
      [⟨⟨"S", ["S", "Model"], [⟨"y", none, none, false⟩]⟩,
        [("y", .num 2)], some [("y", .num 1)]⟩,
       ⟨⟨"P", ["P", "Model"], [⟨"g", none, none, false⟩]⟩,
        [("g", .ref 0)], none⟩] 1 ⟨"g", none, none, false⟩ = true :=
  claim_C1_transitive_change _ 1 0 _ _ ⟨"g", none, none, false⟩ rfl rfl
    (List.mem_singleton.mpr rfl) (Or.inl rfl) rfl
    (fun saved h => Option.noConfusion h)

/-- Claim C3 counterexample: a freshly constructed instance whose single
field was filled only by its default reports `isChanged()` true, not
false — `_applyDefaults` assigns through the snapshotting mutation
path. -/
theorem claim_C3_counterexample :
    ∃ H1 a1,
      construct none
        ⟨"A", ["A", "Model"], [⟨"x", none, some (.val (.num 1)), false⟩]⟩
        .undef false [] = .ok (H1, a1) ∧
      isChanged H1 a1 = true :=
  ⟨_, _, rfl, rfl⟩

/-- Claim C3 (amended): defaults applied after population go through the
normal mutation path and are counted as changes: a freshly constructed
instance with at least one field filled by a default (a declared default
producer resolving to a defined value) reports `isChanged()` true. -/
theorem claim_C3_amended (reg : Registry) (C : ModelClass) (H : Heap)
    (hnd : (C.fields.map FieldDef.name).Nodup)
    (hf : ∃ f ∈ C.fields, ∃ d, f.default = some d ∧
      isUndef (resolveDefault d) = false) :
    ∃ H1 a1, construct reg C .undef false H = .ok (H1, a1) ∧
      isChanged H1 a1 = true := by
  refine ⟨_, _, rfl, ?_⟩
  refine isChanged_of_saved (getElem?_append_self _) ?_
  refine applyDefaults_saved hnd ?_
  obtain ⟨f, hfm, d, hd, hres⟩ := hf
  exact ⟨f, hfm, ⟨d, hd, hres⟩, rfl⟩

theorem claim_C3_witness :
    ∃ H1 a1,
      construct none
        ⟨"B", ["B", "Model"], [⟨"z", none, some (.thunk (.val (.str "v"))), false⟩]⟩
        .undef false [] = .ok (H1, a1) ∧
      isChanged H1 a1 = true :=
  claim_C3_amended none
    ⟨"B", ["B", "Model"], [⟨"z", none, some (.thunk (.val (.str "v"))), false⟩]⟩
    [] (by decide)
    ⟨⟨"z", none, some (.thunk (.val (.str "v"))), false⟩,
      List.mem_singleton.mpr rfl, .thunk (.val (.str "v")), rfl, rfl⟩

/-- Claim C9 counterexample: constructing from `null` does fail, but
with a native TypeError — `typeof null` is `'object'`, so `null` passes
the type check and reading `null._type` throws — not with the
TypeMismatch error the claim asserts for every defined non-object. -/
theorem claim_C9_counterexample :
    construct none ⟨"A", ["A", "Model"], []⟩ .nullV false [] =
      .error .typeError ∧
    Err.typeError ≠ Err.typeMismatch :=
  ⟨rfl, by decide⟩

/-- Claim C9 (amended): every defined, non-null, non-object input fails
with TypeMismatch; `null` fails with a native TypeError instead; and an
already-constructed Model whose declared-type check fails is rejected
with TypeMismatch. -/
theorem claim_C9_amended (reg : Registry) (C : ModelClass) (H : Heap) :
    (∀ s, construct reg C (.str s) false H = .error .typeMismatch) ∧
    (∀ n, construct reg C (.num n) false H = .error .typeMismatch) ∧
    (∀ bl, construct reg C (.boolV bl) false H = .error .typeMismatch) ∧
    construct reg C .nullV false H = .error .typeError ∧
    (∀ b inst, H[b]? = some inst → isOfType inst C.name = false →
      construct reg C (.ref b) false H = .error .typeMismatch) := by
  refine ⟨fun s => rfl, fun n => rfl, fun bl => rfl, rfl, ?_⟩
  intro b inst hb hiso
  exact construct_ref_incompatible reg C false hb hiso

theorem claim_C9_witness :
    construct none ⟨"A", ["A", "Model"], []⟩ (.str "x") false
      [⟨⟨"B", ["B", "Model"], []⟩, [], none⟩] = .error .typeMismatch ∧
    construct none ⟨"A", ["A", "Model"], []⟩ (.ref 0) false
      [⟨⟨"B", ["B", "Model"], []⟩, [], none⟩] = .error .typeMismatch :=
  ⟨(claim_C9_amended none ⟨"A", ["A", "Model"], []⟩
      [⟨⟨"B", ["B", "Model"], []⟩, [], none⟩]).1 "x",
   (claim_C9_amended none ⟨"A", ["A", "Model"], []⟩
      [⟨⟨"B", ["B", "Model"], []⟩, [], none⟩]).2.2.2.2 0
      ⟨⟨"B", ["B", "Model"], []⟩, [], none⟩ rfl (by decide)⟩

/-- Claim C2 counterexample: on a one-field instance holding 1, two
assignments (2, then 3) followed by `rollback()` restore the value 2 —
the value held after the first assignment — not the value 1 held before
it: `_saveFieldValue` overwrites the snapshot on every assignment. -/
theorem claim_C2_counterexample :
    ∃ i3,
      (rollback
        (setFieldValueH
          (setFieldValueH
            [⟨⟨"A", ["A", "Model"], [⟨"x", none, none, false⟩]⟩,
              [("x", .num 1)], none⟩]
            0 ⟨"x", none, none, false⟩ (.num 2) false)
          0 ⟨"x", none, none, false⟩ (.num 3) false) 0)[0]? = some i3 ∧
      getFieldValue i3 "x" = .num 2 ∧ Value.num 2 ≠ Value.num 1 :=
  ⟨_, rfl, rfl, by simp⟩

/-- Claim C2 (amended): every assignment outside deserialization first
snapshots the field's then-current value, overwriting any previous
snapshot for that field; so after two assignments the snapshot holds the
value stored by the first assignment, and `rollback()` restores that
value (the one held immediately before the second assignment), not the
value held before the first. -/
theorem claim_C2_amended (H : Heap) (a : Addr) (i : Instance) (f : FieldDef)
    (v1 v2 : Value) (hi : H[a]? = some i)
    (hnds : (keysOf (i.savedFieldValues.getD [])).Nodup) :
    (setFieldValue f v2 false (setFieldValue f v1 false i)).savedFieldValues =
      some (setKey (i.savedFieldValues.getD []) f.name
        (createValue f v1 false)) ∧
    ∃ i3,
      (rollback (setFieldValueH (setFieldValueH H a f v1 false) a f v2 false)
        a)[a]? = some i3 ∧
      getFieldValue i3 f.name = createValue f v1 false := by
  have hlen : a < H.length := lt_length_of_getElem? hi
  have h1saved :
      (setFieldValue f v1 false i).savedFieldValues =
        some (setKey (i.savedFieldValues.getD []) f.name
          (getFieldValue i f.name)) := setFieldValue_saved f v1 i
  have h2saved :
      (setFieldValue f v2 false (setFieldValue f v1 false i)).savedFieldValues =
        some (setKey (i.savedFieldValues.getD []) f.name
          (createValue f v1 false)) := by
    rw [setFieldValue_saved, h1saved, Option.getD_some,
      getFieldValue_setFieldValue_self, setKey_setKey]
  refine ⟨h2saved, ?_⟩
  have hH1 : setFieldValueH H a f v1 false =
      H.set a (setFieldValue f v1 false i) := setFieldValueH_some f v1 false hi
  have ha1 : (H.set a (setFieldValue f v1 false i))[a]? =
      some (setFieldValue f v1 false i) := List.getElem?_set_self hlen
  have hH2 : setFieldValueH (H.set a (setFieldValue f v1 false i)) a f v2 false
      = (H.set a (setFieldValue f v1 false i)).set a
        (setFieldValue f v2 false (setFieldValue f v1 false i)) :=
    setFieldValueH_some f v2 false ha1
  have hlen2 : a < ((H.set a (setFieldValue f v1 false i)).set a
      (setFieldValue f v2 false (setFieldValue f v1 false i))).length := by
    rw [List.length_set, List.length_set]
    exact hlen
  have ha2 : ((H.set a (setFieldValue f v1 false i)).set a
      (setFieldValue f v2 false (setFieldValue f v1 false i)))[a]? =
      some (setFieldValue f v2 false (setFieldValue f v1 false i)) := by
    refine List.getElem?_set_self ?_
    rw [List.length_set]
    exact hlen
  rw [hH1, hH2]
  -- one step of the rollback walk, then locality of the recursion
  have hrb := rollbackF_succ (((H.set a (setFieldValue f v1 false i)).set a
      (setFieldValue f v2 false (setFieldValue f v1 false i))).length) ha2
  have happrox := foldl_rollbackF_heapApprox
    (((H.set a (setFieldValue f v1 false i)).set a
      (setFieldValue f v2 false (setFieldValue f v1 false i))).length)
    (submodelRefs (restoreSaved
      (setFieldValue f v2 false (setFieldValue f v1 false i))))
    (((H.set a (setFieldValue f v1 false i)).set a
      (setFieldValue f v2 false (setFieldValue f v1 false i))).set a
      (restoreSaved (setFieldValue f v2 false (setFieldValue f v1 false i))))
  have hseta : (((H.set a (setFieldValue f v1 false i)).set a
      (setFieldValue f v2 false (setFieldValue f v1 false i))).set a
      (restoreSaved (setFieldValue f v2 false (setFieldValue f v1 false i))))[a]?
      = some (restoreSaved
        (setFieldValue f v2 false (setFieldValue f v1 false i))) :=
    List.getElem?_set_self hlen2
  have hfinal : (rollback ((H.set a (setFieldValue f v1 false i)).set a
      (setFieldValue f v2 false (setFieldValue f v1 false i))) a)[a]? =
      some (restoreSaved
        (setFieldValue f v2 false (setFieldValue f v1 false i))) := by
    show (rollbackF _ _ a)[a]? = _
    rw [hrb]
    rcases happrox a with h | h
    · rw [h, hseta]
    · rw [h, hseta]
      simp [restoreSaved_restoreSaved]
  refine ⟨_, hfinal, ?_⟩
  -- the restored value at the field is the first assignment's value
  rw [restoreSaved_some h2saved]
  have hnd2 : (keysOf (setKey (i.savedFieldValues.getD []) f.name
      (createValue f v1 false))).Nodup := keysOf_setKey_nodup hnds
  have hself : getKey (setKey (i.savedFieldValues.getD []) f.name
      (createValue f v1 false)) f.name = some (createValue f v1 false) := by
    rw [getKey_setKey, if_pos rfl]
  show (getKey ((setKey (i.savedFieldValues.getD []) f.name
      (createValue f v1 false)).foldl (fun fv p => setKey fv p.1 p.2)
      (setFieldValue f v2 false (setFieldValue f v1 false i)).fieldValues)
      f.name).getD Value.undef = createValue f v1 false
  rw [getKey_foldl_setKey hnd2, hself]
  rfl

theorem claim_C2_witness :
    (setFieldValue ⟨"x", none, none, false⟩ (.num 3) false
      (setFieldValue ⟨"x", none, none, false⟩ (.num 2) false
        ⟨⟨"A", ["A", "Model"], [⟨"x", none, none, false⟩]⟩,
          [("x", .num 1)], none⟩)).savedFieldValues =
      some (setKey [] "x" (.num 2)) ∧
    ∃ i3,
      (rollback (setFieldValueH (setFieldValueH
          [⟨⟨"A", ["A", "Model"], [⟨"x", none, none, false⟩]⟩,
            [("x", .num 1)], none⟩] 0 ⟨"x", none, none, false⟩ (.num 2) false)
          0 ⟨"x", none, none, false⟩ (.num 3) false) 0)[0]? = some i3 ∧
      getFieldValue i3 "x" = .num 2 :=
  claim_C2_amended _ 0 _ ⟨"x", none, none, false⟩ (.num 2) (.num 3) rfl
    (by decide)

/-- Claim C4: a freshly deserialized instance (primitive field values):
mutating a field `x` and calling `rollback()` leaves `x` at its
pre-mutation value with `isChanged()` false; mutating `x` again and
calling `commit()` leaves `isChanged()` false while the new value of
`x` persists. -/
theorem claim_C4_commit_rollback (reg : Registry) (C : ModelClass)
    (entries : List (String × Value)) (H : Heap) (f : FieldDef)
    (v1 v2 : Value)
    (htag : tagOf entries = none)
    (hprim : ∀ p ∈ entries, isPrimitive p.2 = true)
    (hv1 : isPrimitive v1 = true) (hv2 : isPrimitive v2 = true) :
    ∃ H1 a i1,
      deserialize reg C (.obj entries) H = .ok (H1, a) ∧
      H1[a]? = some i1 ∧
      (∃ i3,
        (rollback (setFieldValueH H1 a f v1 false) a)[a]? = some i3 ∧
        getFieldValue i3 f.name = getFieldValue i1 f.name ∧
        isChanged (rollback (setFieldValueH H1 a f v1 false) a) a = false ∧
        (∃ i5,
          (commit (setFieldValueH
            (rollback (setFieldValueH H1 a f v1 false) a) a f v2 false)
            a)[a]? = some i5 ∧
          getFieldValue i5 f.name = createValue f v2 false ∧
          isChanged (commit (setFieldValueH
            (rollback (setFieldValueH H1 a f v1 false) a) a f v2 false)
            a) a = false)) := by
  have hdes : deserialize reg C (.obj entries) H =
      .ok (H ++ [populate C entries true ⟨C, [], none⟩], H.length) := by
    rw [deserialize, construct_obj_untagged reg C true H htag,
      constructPlain_obj_deser]
  refine ⟨H ++ [populate C entries true ⟨C, [], none⟩], H.length,
    populate C entries true ⟨C, [], none⟩, hdes, getElem?_append_self _, ?_⟩
  have hi1saved : (populate C entries true ⟨C, [], none⟩).savedFieldValues =
      none := populate_saved_deser C entries ⟨C, [], none⟩
  have hi1flat : ∀ p ∈ (populate C entries true ⟨C, [], none⟩).fieldValues,
      isPrimitive p.2 = true :=
    flat_populate hprim ⟨C, [], none⟩ (fun p hp => absurd hp (List.not_mem_nil p))
  have ha1 : (H ++ [populate C entries true ⟨C, [], none⟩])[H.length]? =
      some (populate C entries true ⟨C, [], none⟩) := getElem?_append_self _
  have hlen1 : H.length < (H ++ [populate C entries true ⟨C, [], none⟩]).length :=
    lt_length_of_getElem? ha1
  -- first mutation
  have hH2 : setFieldValueH (H ++ [populate C entries true ⟨C, [], none⟩])
      H.length f v1 false =
      (H ++ [populate C entries true ⟨C, [], none⟩]).set H.length
        (setFieldValue f v1 false (populate C entries true ⟨C, [], none⟩)) :=
    setFieldValueH_some f v1 false ha1
  have ha2 : ((H ++ [populate C entries true ⟨C, [], none⟩]).set H.length
      (setFieldValue f v1 false
        (populate C entries true ⟨C, [], none⟩)))[H.length]? =
      some (setFieldValue f v1 false (populate C entries true ⟨C, [], none⟩)) :=
    List.getElem?_set_self hlen1
  have hi2saved : (setFieldValue f v1 false
      (populate C entries true ⟨C, [], none⟩)).savedFieldValues =
      some (setKey [] f.name
        (getFieldValue (populate C entries true ⟨C, [], none⟩) f.name)) := by
    rw [setFieldValue_saved, hi1saved, Option.getD_none]
  have hi2flat := @flat_setFieldValue f v1 false
    (populate C entries true ⟨C, [], none⟩) hv1 hi1flat
  -- the rollback restores and recurses into nothing (no submodels)
  have hi3eq : restoreSaved (setFieldValue f v1 false
      (populate C entries true ⟨C, [], none⟩)) =
      { setFieldValue f v1 false (populate C entries true ⟨C, [], none⟩) with
        fieldValues := (setKey [] f.name
          (getFieldValue (populate C entries true ⟨C, [], none⟩) f.name)).foldl
            (fun fv p => setKey fv p.1 p.2)
            (setFieldValue f v1 false
              (populate C entries true ⟨C, [], none⟩)).fieldValues
        savedFieldValues := none } := restoreSaved_some hi2saved
  have hi3flat : ∀ p ∈ (restoreSaved (setFieldValue f v1 false
      (populate C entries true ⟨C, [], none⟩))).fieldValues,
      isPrimitive p.2 = true := by
    rw [hi3eq]
    refine flat_foldl_setKey ?_ _ hi2flat
    intro p hp
    rcases mem_setKey hp with hp2 | hp2
    · exact absurd hp2 (List.not_mem_nil p)
    · subst hp2
      exact isPrimitive_getFieldValue hi1flat f.name
  have hi3saved : (restoreSaved (setFieldValue f v1 false
      (populate C entries true ⟨C, [], none⟩))).savedFieldValues = none := by
    rw [hi3eq]
  have hsub3 : submodelRefs (restoreSaved (setFieldValue f v1 false
      (populate C entries true ⟨C, [], none⟩))) = [] :=
    submodelRefs_eq_nil (fun g _ => isPrimitive_getFieldValue hi3flat g.name)
  have hroll : rollback ((H ++ [populate C entries true ⟨C, [], none⟩]).set
      H.length (setFieldValue f v1 false
        (populate C entries true ⟨C, [], none⟩))) H.length =
      ((H ++ [populate C entries true ⟨C, [], none⟩]).set H.length
        (setFieldValue f v1 false (populate C entries true ⟨C, [], none⟩))).set
        H.length (restoreSaved (setFieldValue f v1 false
          (populate C entries true ⟨C, [], none⟩))) := by
    show rollbackF _ _ _ = _
    rw [rollbackF_succ _ ha2, hsub3, List.foldl_nil]
  have hlen3 : H.length < (((H ++ [populate C entries true ⟨C, [], none⟩]).set
      H.length (setFieldValue f v1 false
        (populate C entries true ⟨C, [], none⟩))).set H.length
        (restoreSaved (setFieldValue f v1 false
          (populate C entries true ⟨C, [], none⟩)))).length := by
    rw [List.length_set, List.length_set]
    exact hlen1
  have ha3 : (((H ++ [populate C entries true ⟨C, [], none⟩]).set H.length
      (setFieldValue f v1 false (populate C entries true ⟨C, [], none⟩))).set
      H.length (restoreSaved (setFieldValue f v1 false
        (populate C entries true ⟨C, [], none⟩))))[H.length]? =
      some (restoreSaved (setFieldValue f v1 false
        (populate C entries true ⟨C, [], none⟩))) := by
    refine List.getElem?_set_self ?_
    rw [List.length_set]
    exact hlen1
  have hval3 : getFieldValue (restoreSaved (setFieldValue f v1 false
      (populate C entries true ⟨C, [], none⟩))) f.name =
      getFieldValue (populate C entries true ⟨C, [], none⟩) f.name := by
    rw [hi3eq]
    show (getKey ((setKey [] f.name
        (getFieldValue (populate C entries true ⟨C, [], none⟩) f.name)).foldl
        (fun fv p => setKey fv p.1 p.2)
        (setFieldValue f v1 false
          (populate C entries true ⟨C, [], none⟩)).fieldValues)
        f.name).getD Value.undef =
      getFieldValue (populate C entries true ⟨C, [], none⟩) f.name
    have hnd1 : (keysOf (setKey ([] : List (String × Value)) f.name
        (getFieldValue (populate C entries true ⟨C, [], none⟩) f.name))).Nodup := by
      simp [setKey, keysOf]
    rw [getKey_foldl_setKey hnd1]
    have : getKey (setKey ([] : List (String × Value)) f.name
        (getFieldValue (populate C entries true ⟨C, [], none⟩) f.name)) f.name =
        some (getFieldValue (populate C entries true ⟨C, [], none⟩) f.name) := by
      rw [getKey_setKey, if_pos rfl]
    rw [this]
    rfl
  rw [hH2, hroll]
  refine ⟨_, ha3, hval3, isChanged_flat_false ha3 hi3saved hsub3, ?_⟩
  -- second mutation and commit
  have hH4 := setFieldValueH_some f v2 false ha3
  have ha4 : ((((H ++ [populate C entries true ⟨C, [], none⟩]).set H.length
      (setFieldValue f v1 false (populate C entries true ⟨C, [], none⟩))).set
      H.length (restoreSaved (setFieldValue f v1 false
        (populate C entries true ⟨C, [], none⟩)))).set H.length
      (setFieldValue f v2 false (restoreSaved (setFieldValue f v1 false
        (populate C entries true ⟨C, [], none⟩)))))[H.length]? =
      some (setFieldValue f v2 false (restoreSaved (setFieldValue f v1 false
        (populate C entries true ⟨C, [], none⟩)))) :=
    List.getElem?_set_self hlen3
  have hi4flat := @flat_setFieldValue f v2 false
    (restoreSaved (setFieldValue f v1 false
      (populate C entries true ⟨C, [], none⟩))) hv2 hi3flat
  have hsub5 : submodelRefs { setFieldValue f v2 false
      (restoreSaved (setFieldValue f v1 false
        (populate C entries true ⟨C, [], none⟩))) with
      savedFieldValues := none } = [] :=
    submodelRefs_eq_nil (fun g _ => isPrimitive_getFieldValue hi4flat g.name)
  have hcommit : commit ((((H ++ [populate C entries true ⟨C, [], none⟩]).set
      H.length (setFieldValue f v1 false
        (populate C entries true ⟨C, [], none⟩))).set H.length
      (restoreSaved (setFieldValue f v1 false
        (populate C entries true ⟨C, [], none⟩)))).set H.length
      (setFieldValue f v2 false (restoreSaved (setFieldValue f v1 false
        (populate C entries true ⟨C, [], none⟩))))) H.length =
      ((((H ++ [populate C entries true ⟨C, [], none⟩]).set H.length
        (setFieldValue f v1 false (populate C entries true ⟨C, [], none⟩))).set
        H.length (restoreSaved (setFieldValue f v1 false
          (populate C entries true ⟨C, [], none⟩)))).set H.length
        (setFieldValue f v2 false (restoreSaved (setFieldValue f v1 false
          (populate C entries true ⟨C, [], none⟩))))).set H.length
        { setFieldValue f v2 false (restoreSaved (setFieldValue f v1 false
            (populate C entries true ⟨C, [], none⟩))) with
          savedFieldValues := none } := by
    show commitF _ _ _ = _
    rw [commitF_succ _ ha4, hsub5, List.foldl_nil]
  have hlen5 : H.length < ((((H ++ [populate C entries true ⟨C, [], none⟩]).set
      H.length (setFieldValue f v1 false
        (populate C entries true ⟨C, [], none⟩))).set H.length
      (restoreSaved (setFieldValue f v1 false
        (populate C entries true ⟨C, [], none⟩)))).set H.length
      (setFieldValue f v2 false (restoreSaved (setFieldValue f v1 false
        (populate C entries true ⟨C, [], none⟩))))).length := by
    rw [List.length_set, List.length_set, List.length_set]
    exact hlen1
  have ha5 : (((((H ++ [populate C entries true ⟨C, [], none⟩]).set H.length
      (setFieldValue f v1 false (populate C entries true ⟨C, [], none⟩))).set
      H.length (restoreSaved (setFieldValue f v1 false
        (populate C entries true ⟨C, [], none⟩)))).set H.length
      (setFieldValue f v2 false (restoreSaved (setFieldValue f v1 false
        (populate C entries true ⟨C, [], none⟩))))).set H.length
      { setFieldValue f v2 false (restoreSaved (setFieldValue f v1 false
          (populate C entries true ⟨C, [], none⟩))) with
        savedFieldValues := none })[H.length]? =
      some { setFieldValue f v2 false (restoreSaved (setFieldValue f v1 false
          (populate C entries true ⟨C, [], none⟩))) with
        savedFieldValues := none } :=
    List.getElem?_set_self (by rw [List.length_set]; exact hlen3)
  rw [hH4, hcommit]
  refine ⟨_, ha5, ?_, isChanged_flat_false ha5 rfl hsub5⟩
  show getFieldValue (setFieldValue f v2 false (restoreSaved
      (setFieldValue f v1 false (populate C entries true ⟨C, [], none⟩))))
      f.name = createValue f v2 false
  exact getFieldValue_setFieldValue_self f v2 false _

theorem claim_C4_witness :
    ∃ H1 a i1,
      deserialize none ⟨"A", ["A", "Model"], [⟨"x", none, none, false⟩]⟩
        (.obj [("x", .num 1)]) [] = .ok (H1, a) ∧
      H1[a]? = some i1 ∧
      (∃ i3,
        (rollback (setFieldValueH H1 a ⟨"x", none, none, false⟩ (.num 2) false)
          a)[a]? = some i3 ∧
        getFieldValue i3 "x" = getFieldValue i1 "x" ∧
        isChanged (rollback (setFieldValueH H1 a ⟨"x", none, none, false⟩
          (.num 2) false) a) a = false ∧
        (∃ i5,
          (commit (setFieldValueH
            (rollback (setFieldValueH H1 a ⟨"x", none, none, false⟩
              (.num 2) false) a) a ⟨"x", none, none, false⟩ (.num 3) false)
            a)[a]? = some i5 ∧
          getFieldValue i5 "x" = .num 3 ∧
          isChanged (commit (setFieldValueH
            (rollback (setFieldValueH H1 a ⟨"x", none, none, false⟩
              (.num 2) false) a) a ⟨"x", none, none, false⟩ (.num 3) false)
            a) a = false)) :=
  claim_C4_commit_rollback none ⟨"A", ["A", "Model"], [⟨"x", none, none, false⟩]⟩
    [("x", .num 1)] [] ⟨"x", none, none, false⟩ (.num 2) (.num 3) rfl
    (by decide) rfl rfl

/-! ### Claim C10 -/

/-- Claim C10: when `a`'s entry at a name `n` is the leaf `true` and
`b`'s entry at `n` is a nested object, `$remove(a, b)` drops `n`
entirely: the recursive subtraction runs on `Object.entries(true) = []`,
whose remainder is empty, so the name is not kept. -/
theorem claim_C10_remove_leaf_by_nested (a b : Fields) (n : String)
    (sb : Fields) (hnd : (keysOf a).Nodup)
    (ha : getKey a n = some .leaf) (hb : getKey b n = some (.node sb)) :
    getKey (remove a b) n = none := by
  show getKey (removeFields a b) n = none
  rw [getKey_removeFields_node hb ha hnd]
  have h0 : removeFields (entriesOf FieldTree.leaf) sb = [] := by
    simp [entriesOf, removeFields]
  rw [h0]
  rfl

theorem claim_C10_witness :
    getKey (remove [("a", FieldTree.leaf)]
      [("a", FieldTree.node [("b", FieldTree.leaf)])]) "a" = none :=
  claim_C10_remove_leaf_by_nested
    [("a", FieldTree.leaf)] [("a", FieldTree.node [("b", FieldTree.leaf)])]
    "a" [("b", FieldTree.leaf)] (by decide) rfl rfl

/-! ### Claim C7 -/

/-- Claim C7: `$remove(a, b)` keeps each name of `a` unchanged when `b`
has no entry for it, recursively subtracts (keeping the name only when
the remainder is non-empty) when `b`'s entry is nested, and drops the
name entirely when `b`'s entry is the leaf `true`; in particular
`remove({a: {b: true, c: true}}, {a: {b: true}})` yields
`{a: {c: true}}` and `remove({a: {b: true}}, {a: true})`
yields `{}`. -/
theorem claim_C7_remove_characterization (a b : Fields)
    (hnd : (keysOf a).Nodup) :
    (∀ name, getKey b name = none →
      getKey (remove a b) name = getKey a name) ∧
    (∀ name, getKey b name = some .leaf →
      getKey (remove a b) name = none) ∧
    (∀ name sb t, getKey b name = some (.node sb) →
      getKey a name = some t →
      getKey (remove a b) name =
        (if (removeFields (entriesOf t) sb).isEmpty then none
         else some (.node (removeFields (entriesOf t) sb)))) ∧
    remove [("a", FieldTree.node [("b", FieldTree.leaf), ("c", FieldTree.leaf)])]
        [("a", FieldTree.node [("b", FieldTree.leaf)])] =
      [("a", FieldTree.node [("c", FieldTree.leaf)])] ∧
    remove [("a", FieldTree.node [("b", FieldTree.leaf)])]
        [("a", FieldTree.leaf)] = [] := by
  refine ⟨fun name hb => getKey_removeFields_none hb,
    fun name hb => getKey_removeFields_leaf hb hnd,
    fun name sb t hb ha => getKey_removeFields_node hb ha hnd, ?_, ?_⟩
  · simp [remove, removeFields, getKey, entriesOf]
  · simp [remove, removeFields, getKey, entriesOf]

theorem claim_C7_witness :
    ((∀ name, getKey ([] : Fields) name = none →
      getKey (remove [("x", FieldTree.leaf)] []) name =
        getKey [("x", FieldTree.leaf)] name) ∧
    (∀ name, getKey ([] : Fields) name = some .leaf →
      getKey (remove [("x", FieldTree.leaf)] []) name = none) ∧
    (∀ name sb t, getKey ([] : Fields) name = some (.node sb) →
      getKey [("x", FieldTree.leaf)] name = some t →
      getKey (remove [("x", FieldTree.leaf)] []) name =
        (if (removeFields (entriesOf t) sb).isEmpty then none
         else some (.node (removeFields (entriesOf t) sb)))) ∧
    remove [("a", FieldTree.node [("b", FieldTree.leaf), ("c", FieldTree.leaf)])]
        [("a", FieldTree.node [("b", FieldTree.leaf)])] =
      [("a", FieldTree.node [("c", FieldTree.leaf)])] ∧
    remove [("a", FieldTree.node [("b", FieldTree.leaf)])]
        [("a", FieldTree.leaf)] = []) :=
  claim_C7_remove_characterization [("x", FieldTree.leaf)] [] (by decide)

/-! ### Claim C6 -/

/-- Claim C6: for well-formed masks with no leaf/nested conflict on any
shared path, `$add(a, b)` succeeds and the result `$includes` both
inputs. -/
theorem claim_C6_add_includes (a b : Fields)
    (hwa : wfFields a = true) (hwb : wfFields b = true)
    (hnc : conflict a b = false) :
    ∃ r, add a b = some r ∧
      includes r a = true ∧ includes r b = true := by
  cases hr : add a b with
  | none =>
    exact absurd ((mergeInto_eq_none_iff a a b).mp hr) (by simp [hnc])
  | some r =>
    have h := mergeInto_includes (sizeOf b) a b r le_rfl hwa hwb hr
    exact ⟨r, rfl, h.1, h.2⟩

theorem claim_C6_witness :
    ∃ r, add [("a", FieldTree.leaf)] [("b", FieldTree.leaf)] = some r ∧
      includes r [("a", FieldTree.leaf)] = true ∧
      includes r [("b", FieldTree.leaf)] = true :=
  claim_C6_add_includes [("a", FieldTree.leaf)] [("b", FieldTree.leaf)]
    (by simp [wfFields, keysOf])
    (by simp [wfFields, keysOf])
    (by simp [conflict, getKey])

/-! ### Claim C5 -/

/-- Claim C5: `$add(a, b)` fails with the incompatible-mask error
exactly when some shared path carries a leaf on one side and a nested
object on the other; on success the result merges leaf entries
idempotently, merges nested entries recursively, and passes names
present only in `a` through unchanged (the inputs, being values of the
embedding, are not mutated). -/
theorem claim_C5_add_spec (a b : Fields) (hnd : (keysOf b).Nodup) :
    (add a b = none ↔ conflict a b = true) ∧
    (∀ r, add a b = some r →
      (∀ name, getKey b name = none → getKey r name = getKey a name) ∧
      (∀ name, getKey a name = some .leaf → getKey b name = some .leaf →
        getKey r name = some .leaf) ∧
      (∀ name, getKey a name = none → getKey b name = some .leaf →
        getKey r name = some .leaf) ∧
      (∀ name sa sb, getKey a name = some (.node sa) →
        getKey b name = some (.node sb) →
        ∃ m, add sa sb = some m ∧ getKey r name = some (.node m)) ∧
      (∀ name sb, getKey a name = none → getKey b name = some (.node sb) →
        ∃ m, add ([] : Fields) sb = some m ∧
          getKey r name = some (.node m))) := by
  constructor
  · exact mergeInto_eq_none_iff a a b
  · intro r hr
    refine ⟨?_, ?_, ?_, ?_, ?_⟩
    · intro name hb
      exact getKey_mergeInto_of_notMem ((getKey_eq_none b name).mp hb) hr
    · intro name ha hb
      have h := getKey_mergeInto_at_key hnd hb hr
      rw [ha] at h
      exact h
    · intro name ha hb
      have h := getKey_mergeInto_at_key hnd hb hr
      rw [ha] at h
      exact h
    · intro name sa sb ha hb
      have h := getKey_mergeInto_at_key hnd hb hr
      rw [ha] at h
      exact h
    · intro name sb ha hb
      have h := getKey_mergeInto_at_key hnd hb hr
      rw [ha] at h
      exact h

theorem claim_C5_witness :
    ((add [("a", FieldTree.leaf)] [("a", FieldTree.leaf)] = none ↔
      conflict [("a", FieldTree.leaf)] [("a", FieldTree.leaf)] = true) ∧
    (∀ r, add [("a", FieldTree.leaf)] [("a", FieldTree.leaf)] = some r →
      (∀ name, getKey [("a", FieldTree.leaf)] name = none →
        getKey r name = getKey [("a", FieldTree.leaf)] name) ∧
      (∀ name, getKey [("a", FieldTree.leaf)] name = some .leaf →
        getKey [("a", FieldTree.leaf)] name = some .leaf →
        getKey r name = some .leaf) ∧
      (∀ name, getKey [("a", FieldTree.leaf)] name = none →
        getKey [("a", FieldTree.leaf)] name = some .leaf →
        getKey r name = some .leaf) ∧
      (∀ name sa sb,
        getKey [("a", FieldTree.leaf)] name = some (.node sa) →
        getKey [("a", FieldTree.leaf)] name = some (.node sb) →
        ∃ m, add sa sb = some m ∧ getKey r name = some (.node m)) ∧
      (∀ name sb, getKey [("a", FieldTree.leaf)] name = none →
        getKey [("a", FieldTree.leaf)] name = some (.node sb) →
        ∃ m, add ([] : Fields) sb = some m ∧
          getKey r name = some (.node m)))) :=
  claim_C5_add_spec [("a", FieldTree.leaf)] [("a", FieldTree.leaf)]
    (by decide)

/-! ### Claim C8 -/

/-- Claim C8: round trip.  For an instance of a registered class (the
registry resolving the class's name back to it, the class naming itself
in its constructor chain, no duplicate declared or wire field names,
`_type` not used as a wire name, and — in the primitive fragment this
development models `Field` in — a flat value store),
`deserialize(m.serialize())` succeeds, produces an instance whose
`isOfType` matches `m`'s type name, whose serialization equals `m`'s,
and whose `isChanged()` is false immediately after deserialization. -/
theorem claim_C8_round_trip (reg : Registry) (H : Heap) (a : Addr)
    (m : Instance)
    (hm : H[a]? = some m)
    (hreg : getModel reg m.cls.name = .ok m.cls)
    (hchain : m.cls.name ∈ m.cls.chain)
    (hndn : (m.cls.fields.map FieldDef.name).Nodup)
    (hnds : (m.cls.fields.map effectiveSerializedName).Nodup)
    (hnotype : "_type" ∉ m.cls.fields.map effectiveSerializedName)
    (hflat : ∀ p ∈ m.fieldValues, isPrimitive p.2 = true) :
    ∃ S H1 a1 i1,
      serialize H a {} = some S ∧
      deserialize reg m.cls S H = .ok (H1, a1) ∧
      H1[a1]? = some i1 ∧
      isOfType i1 m.cls.name = true ∧
      serialize H1 a1 {} = serialize H a {} ∧
      isChanged H1 a1 = false := by
  have hknodup : (keysOf (wireEntries m)).Nodup := by
    have hkeys : keysOf (wireEntries m) =
        (m.cls.fields.filter
          fun g => !(isUndef (getFieldValue m g.name))).map
          effectiveSerializedName := by
      unfold wireEntries keysOf
      rw [List.map_map]
      rfl
    rw [hkeys]
    exact List.Nodup.sublist
      (List.Sublist.map effectiveSerializedName (List.filter_sublist _)) hnds
  have hwt : ∀ p ∈ wireEntries m, p.1 ≠ "_type" := by
    intro p hp
    obtain ⟨g, hg, he⟩ := List.mem_map.mp hp
    intro hbad
    refine hnotype (List.mem_map.mpr ⟨g, (List.mem_filter.mp hg).1, ?_⟩)
    exact (congrArg Prod.fst he).trans hbad
  have hcls1 : (populate m.cls (wireEntries m) true
      (⟨m.cls, [], none⟩ : Instance)).cls = m.cls :=
    populate_cls m.cls (wireEntries m) true ⟨m.cls, [], none⟩
  have hval : ∀ f ∈ m.cls.fields,
      getFieldValue (populate m.cls (wireEntries m) true
        (⟨m.cls, [], none⟩ : Instance)) f.name = getFieldValue m f.name := by
    intro f hf
    have h1 := getKey_populate hf hndn hnds (wireEntries m) hknodup
      ⟨m.cls, [], none⟩
    cases hu : isUndef (getFieldValue m f.name) with
    | true =>
      have h2 : getKey (wireEntries m) (effectiveSerializedName f) = none := by
        rw [getKey_wireEntries hf hnds, if_pos hu]
      rw [h2] at h1
      show (getKey (populate m.cls (wireEntries m) true
        (⟨m.cls, [], none⟩ : Instance)).fieldValues f.name).getD Value.undef =
        getFieldValue m f.name
      rw [h1, isUndef_eq hu]
      rfl
    | false =>
      have h2 : getKey (wireEntries m) (effectiveSerializedName f) =
          some (getFieldValue m f.name) := by
        rw [getKey_wireEntries hf hnds, if_neg (by simp [hu])]
      rw [h2] at h1
      show (getKey (populate m.cls (wireEntries m) true
        (⟨m.cls, [], none⟩ : Instance)).fieldValues f.name).getD Value.undef =
        getFieldValue m f.name
      rw [h1]
      rfl
  have hflat1 : ∀ p ∈ (populate m.cls (wireEntries m) true
      (⟨m.cls, [], none⟩ : Instance)).fieldValues, isPrimitive p.2 = true := by
    refine flat_populate ?_ _ ?_
    · intro p hp
      obtain ⟨g, hg, he⟩ := List.mem_map.mp hp
      rw [← he]
      exact isPrimitive_getFieldValue hflat g.name
    · intro p hp
      exact absurd hp (List.not_mem_nil p)
  have hiso1 : isOfType (populate m.cls (wireEntries m) true
      (⟨m.cls, [], none⟩ : Instance)) m.cls.name = true := by
    show (decide (m.cls.name = "Model") ||
      (populate m.cls (wireEntries m) true
        (⟨m.cls, [], none⟩ : Instance)).cls.chain.contains m.cls.name) = true
    have h1 : m.cls.chain.contains m.cls.name = true :=
      List.elem_eq_true_of_mem hchain
    rw [hcls1, h1, Bool.or_true]
  refine ⟨.obj (("_type", .str m.cls.name) :: wireEntries m),
    H ++ [populate m.cls (wireEntries m) true ⟨m.cls, [], none⟩],
    H.length,
    populate m.cls (wireEntries m) true ⟨m.cls, [], none⟩,
    serialize_default hm, ?_, getElem?_append_self _, hiso1, ?_, ?_⟩
  · show construct reg m.cls
      (.obj (("_type", .str m.cls.name) :: wireEntries m)) true H = _
    refine construct_obj_tagged reg m.cls true H
      (tagOf_cons_str m.cls.name (wireEntries m)) hreg ?_
      (getElem?_append_self _) hiso1
    rw [stripTag_cons_tag _ hwt]
    exact constructPlain_obj_deser m.cls (wireEntries m) H
  · rw [serialize_default (getElem?_append_self _), serialize_default hm,
      hcls1, wireEntries_congr hcls1 hval]
  · refine isChanged_flat_false (getElem?_append_self _) ?_ ?_
    · exact populate_saved_deser m.cls (wireEntries m) ⟨m.cls, [], none⟩
    · refine submodelRefs_eq_nil ?_
      intro f hf
      exact isPrimitive_getFieldValue hflat1 f.name

theorem claim_C8_witness :
    ∃ S H1 a1 i1,
      serialize [(⟨⟨"A", ["A", "Model"], [⟨"x", none, none, false⟩]⟩,
        [("x", Value.num 1)], none⟩ : Instance)] 0 {} = some S ∧
      deserialize
        (some [("A", ⟨"A", ["A", "Model"], [⟨"x", none, none, false⟩]⟩)])
        (⟨"A", ["A", "Model"], [⟨"x", none, none, false⟩]⟩ : ModelClass) S
        [(⟨⟨"A", ["A", "Model"], [⟨"x", none, none, false⟩]⟩,
          [("x", Value.num 1)], none⟩ : Instance)] = .ok (H1, a1) ∧
      H1[a1]? = some i1 ∧
      isOfType i1 "A" = true ∧
      serialize H1 a1 {} =
        serialize [(⟨⟨"A", ["A", "Model"], [⟨"x", none, none, false⟩]⟩,
          [("x", Value.num 1)], none⟩ : Instance)] 0 {} ∧
      isChanged H1 a1 = false :=
  claim_C8_round_trip
    (some [("A", ⟨"A", ["A", "Model"], [⟨"x", none, none, false⟩]⟩)])
    [(⟨⟨"A", ["A", "Model"], [⟨"x", none, none, false⟩]⟩,
      [("x", Value.num 1)], none⟩ : Instance)] 0
    (⟨⟨"A", ["A", "Model"], [⟨"x", none, none, false⟩]⟩,
      [("x", Value.num 1)], none⟩ : Instance)
    rfl rfl (by decide) (by decide) (by decide) (by decide) (by decide)

end Liaison
